import Mathlib

/-!
# MemoryManager: a shallow embedding of `MemoryManager.cpp` / `MemoryManager.h`

The linked list of `LL_Node`s is a `List LL_Node` (the `prev`/`next` links are the
positions in the list, `nullptr` is `[]`).  Every loop whose counter is a `uint16_t`
is modelled with that counter reduced modulo `65536` and with explicit fuel, so a run
that never leaves the loop is visible as `Outcome.outOfFuel` for every amount of fuel.
The `int` fields of a node are integers; the `int` results `allocate` computes (the
conversion of the word count, `head + l`, `size - l`, the conversion of `size_in_words`)
are reduced to the 32-bit two's complement range by `wrap32`, which is what x86-64 gives
where C++ leaves the overflow undefined.  The word count `ceil((float) sizeInBytes /
word_size)` is computed in binary32 (`toFloat`, `ceilQuot`: 24-bit significand, round to
nearest, ties to even) and converted to `int` as `cvttss2si` does (`INT_MIN` out of
range).  Byte addresses are integers, `0` being `nullptr`; the byte offset
`offset * word_size` is an `unsigned` product, taken modulo `2^32`.  The byte arrays that
`new` leaves uninitialised have cells of type `Option`, `none` until the code writes them.
-/

namespace MemSim

/-- Result of running a piece of the program: it returns a value, it is still running
when the fuel is used up, or it performs an operation C++ leaves undefined
(dereferencing `nullptr`, dividing by zero). -/
inductive Outcome (α : Type) where
  | returns (a : α)
  | outOfFuel
  | undefinedBehaviour
deriving DecidableEq, Repr

/-- One node of the ledger (`struct LL_Node`, without the two links). -/
structure LL_Node where
  head : Int
  hole : Bool
  size : Int
deriving DecidableEq, Repr

/-- The data members of `class MemoryManager` that the ledger operations read or write.
The `allocator` member is passed to `allocate` as an argument (`setAllocator` only
replaces it, `allocate` only calls it); `list` and `bit_map` are output buffers and are
the values returned by `updateList` / `updateBitmap`. -/
structure MemoryManager where
  word_size : Nat
  size_in_words : Nat
  mem : Nat
  start : Int
  node : List LL_Node
deriving DecidableEq, Repr

/-- Type of `std::function<int(int, void*)>`: requested words and the `uint16_t` array
produced by `getList`; the first argument is the fuel of the model. -/
abbrev Allocator := Nat → Int → List Nat → Outcome Int

/-- Conversion of an `int` to `uint16_t`. -/
def toU16 (x : Int) : Nat := (x % 65536).toNat

/-- Constructor `MemoryManager::MemoryManager`: only `word_size` is set; `size_in_words`
and `mem` have indeterminate values (`junkSize`, `junkMem`), `start` and `node` are
`nullptr`. -/
def construct (wordSize junkSize junkMem : Nat) : MemoryManager :=
  { word_size := wordSize, size_in_words := junkSize, mem := junkMem, start := 0, node := [] }

/-- Function `MemoryManager::shutdown`: `start` and `node` become `nullptr`. -/
def shutdown (m : MemoryManager) : MemoryManager :=
  { m with start := 0, node := [] }

/-- Function `MemoryManager::initialize`; `brk` is the address returned by `sbrk`.
Nothing happens for `sizeInwords ≥ 65536`; otherwise the sizes are stored, `shutdown`
runs only when `start` is not `nullptr`, and `start` is set.  The ledger `node` is not
touched except through that `shutdown`. -/
def initializeArena (m : MemoryManager) (sizeInwords : Nat) (brk : Int) : MemoryManager :=
  if sizeInwords < 65536 then
    let m1 := { m with size_in_words := sizeInwords,
                       mem := (m.word_size * sizeInwords) % 4294967296 }
    let m2 := if m1.start ≠ 0 then shutdown m1 else m1
    { m2 with start := brk }
  else m

/-- First loop of `updateList`: `l` counts the holes in a `uint16_t`, `temp_vec`
receives `head` and `size` of every hole, converted to `uint16_t`. -/
def updateList.scan : List LL_Node → Nat → List Nat → Nat × List Nat
  | [], l, temp_vec => (l, temp_vec)
  | temp :: next, l, temp_vec =>
    if temp.hole then
      updateList.scan next ((l + 1) % 65536) (temp_vec ++ [toU16 temp.head, toU16 temp.size])
    else updateList.scan next l temp_vec

/-- Second loop of `updateList`: `for (counter = 0; counter < l * 2; counter++)` with
`counter` a `uint16_t` and `l * 2` an `int`. -/
def updateList.copy (temp_vec : List Nat) (l : Nat) : Nat → Nat → List Nat → Outcome (List Nat)
  | 0, _, _ => Outcome.outOfFuel
  | fuel + 1, counter, list =>
    if counter < l * 2 then
      updateList.copy temp_vec l fuel ((counter + 1) % 65536)
        (list.set (counter + 1) (temp_vec.getD counter 0))
    else Outcome.returns list

/-- Function `MemoryManager::updateList` (and `getList`, which returns its array): the
array has `2 * l + 1` cells, cell `0` is `l`; the cells the loop has not written yet
(uninitialised in the code) are shown as `0`. -/
def updateList (fuel : Nat) (node : List LL_Node) : Outcome (List Nat) :=
  let r := updateList.scan node 0 []
  updateList.copy r.2 r.1 fuel 0 (r.1 :: List.replicate (2 * r.1) 0)

/-- Loop of `bestFit`: `for (uint16_t i = 1; i < length * 2; i += 2)` over the array
after its first cell (`holeList[i]` is `holeList.getD i 0`; the loop bound keeps `i`
inside an array of `length` pairs). -/
def bestFit.loop (sizeInWords : Int) (holeList : List Nat) (length : Nat) :
    Nat → Nat → Int → Int → Outcome Int
  | 0, _, _, _ => Outcome.outOfFuel
  | fuel + 1, i, diff, offset =>
    if i < length * 2 then
      if (holeList.getD i 0 : Int) ≥ sizeInWords ∧ (holeList.getD i 0 : Int) < diff then
        bestFit.loop sizeInWords holeList length fuel ((i + 2) % 65536)
          (holeList.getD i 0) (holeList.getD (i - 1) 0)
      else bestFit.loop sizeInWords holeList length fuel ((i + 2) % 65536) diff offset
    else Outcome.returns offset

/-- Function `bestFit`: `diff` starts at `INT16_MAX`, `offset` at `-1`. -/
def bestFit : Allocator := fun fuel sizeInWords list =>
  match list with
  | [] => Outcome.undefinedBehaviour
  | length :: holeList => bestFit.loop sizeInWords holeList length fuel 1 32767 (-1)

/-- Loop of `worstFit`, the same traversal with `>` on `diff`. -/
def worstFit.loop (sizeInWords : Int) (holeList : List Nat) (length : Nat) :
    Nat → Nat → Int → Int → Outcome Int
  | 0, _, _, _ => Outcome.outOfFuel
  | fuel + 1, i, diff, offset =>
    if i < length * 2 then
      if (holeList.getD i 0 : Int) ≥ sizeInWords ∧ (holeList.getD i 0 : Int) > diff then
        worstFit.loop sizeInWords holeList length fuel ((i + 2) % 65536)
          (holeList.getD i 0) (holeList.getD (i - 1) 0)
      else worstFit.loop sizeInWords holeList length fuel ((i + 2) % 65536) diff offset
    else Outcome.returns offset

/-- Function `worstFit`: `diff` and `offset` both start at `-1`. -/
def worstFit : Allocator := fun fuel sizeInWords list =>
  match list with
  | [] => Outcome.undefinedBehaviour
  | length :: holeList => worstFit.loop sizeInWords holeList length fuel 1 (-1) (-1)

/-- Reduction of an integer to the range of `int`, `-2^31 .. 2^31 - 1`, modulo `2^32`. -/
def wrap32 (x : Int) : Int := (x + 2147483648) % 4294967296 - 2147483648

/-- Lines 62 to 74 of `allocate`: walk to the first node whose `head` is `offset`
(`none` when the walk reaches `nullptr`, which the code then dereferences); flip it when
its size is `l`, otherwise cut it into an allocated node of size `l` and a new hole at
`temp->head + l` of size `temp->size - l`, both `int` results. -/
def claimNode (offset l : Int) : List LL_Node → Option (List LL_Node)
  | [] => none
  | temp :: next =>
    if temp.head ≠ offset then (claimNode offset l next).map (fun rest => temp :: rest)
    else if temp.size = l then some ({ temp with hole := false } :: next)
    else some ({ head := temp.head, hole := false, size := l } ::
               { head := wrap32 (temp.head + l), hole := true,
                 size := wrap32 (temp.size - l) } :: next)

/-- Search for the position of the leading bit of `n`, at most `fuel` halvings. -/
def ilog2.go : Nat → Nat → Nat
  | 0, _ => 0
  | fuel + 1, n => if 2 ≤ n then ilog2.go fuel (n / 2) + 1 else 0

/-- Position of the leading bit of `n`: the `e` with `2^e ≤ n < 2^(e+1)` (`0` for `0`). -/
def ilog2 (n : Nat) : Nat := ilog2.go n n

/-- The quotient `x / y` rounded to the nearest integer, a tie going to the even one. -/
def roundDiv (x y : Nat) : Nat :=
  if 2 * (x % y) > y ∨ (2 * (x % y) = y ∧ (x / y) % 2 = 1) then x / y + 1 else x / y

/-- Conversion `(float) n` of an unsigned integer: below `2^24` the value itself, above it
the nearest multiple of the unit in the last of 24 significant bits, ties to even.  The
result is an integer. -/
def toFloat (n : Nat) : Nat :=
  if n < 16777216 then n else roundDiv n (2 ^ (ilog2 n - 23)) * 2 ^ (ilog2 n - 23)

/-- Value of `ceil(a / b)` for two integer-valued binary32 numbers `a` and `b > 0`: the
quotient is rounded to 24 significant bits (its leading bit is that of `a / b`, so the
unit in the last place is `2^(e - 23)`), then `ceil` is applied.  A quotient below `1` is
positive after rounding, so its `ceil` is `1`. -/
def ceilQuot (a b : Nat) : Nat :=
  if a = 0 then 0
  else if a < b then 1
  else if 23 ≤ ilog2 (a / b) then
    roundDiv a (b * 2 ^ (ilog2 (a / b) - 23)) * 2 ^ (ilog2 (a / b) - 23)
  else
    (roundDiv (a * 2 ^ (23 - ilog2 (a / b))) b + 2 ^ (23 - ilog2 (a / b)) - 1)
      / 2 ^ (23 - ilog2 (a / b))

/-- Value of `int l = ceil((float) sizeInBytes / word_size)` (line 55), `word_size > 0`:
both operands are converted to binary32, the quotient is rounded, `ceil` is applied, and
the conversion to `int` gives `INT_MIN` when the value does not fit. -/
def wordsFor (sizeInBytes word_size : Nat) : Int :=
  if ceilQuot (toFloat sizeInBytes) (toFloat word_size) < 2147483648 then
    (ceilQuot (toFloat sizeInBytes) (toFloat word_size) : Nat)
  else -2147483648

/-- Function `MemoryManager::allocate`.  Returns the address (`0` for `nullptr`) and
the new state.  The ledger is created on the first call, before the allocator runs; the
address is `start` plus the `unsigned` product `offset * word_size`. -/
def allocate (allocator : Allocator) (fuel : Nat) (m : MemoryManager) (sizeInBytes : Nat) :
    Outcome (Int × MemoryManager) :=
  if m.word_size = 0 then Outcome.undefinedBehaviour
  else
    let node1 := if m.node = [] then
                   [{ head := 0, hole := true, size := wrap32 m.size_in_words }]
                 else m.node
    let l := wordsFor sizeInBytes m.word_size
    match updateList fuel node1 with
    | Outcome.outOfFuel => Outcome.outOfFuel
    | Outcome.undefinedBehaviour => Outcome.undefinedBehaviour
    | Outcome.returns list =>
      match allocator fuel l list with
      | Outcome.outOfFuel => Outcome.outOfFuel
      | Outcome.undefinedBehaviour => Outcome.undefinedBehaviour
      | Outcome.returns offset =>
        if offset = -1 then Outcome.returns (0, { m with node := node1 })
        else
          match claimNode offset l node1 with
          | none => Outcome.undefinedBehaviour
          | some node2 =>
            Outcome.returns (m.start + (offset * m.word_size) % 4294967296,
              { m with node := node2 })

/-- Function `MemoryManager::combine_holes`, whose body is empty. -/
def combine_holes (node : List LL_Node) : List LL_Node := node

/-- Loop of `free`: every node whose `head` is `offset` becomes a hole. -/
def free.mark (offset : Int) : List LL_Node → List LL_Node
  | [] => []
  | temp :: next =>
    (if temp.head = offset then { temp with hole := true } else temp) :: free.mark offset next

/-- Function `MemoryManager::free`: the offset is the truncating quotient of the byte
distance by `word_size` (the `ceil` is applied to an integer), then the marking loop,
then `combine_holes`. -/
def free (m : MemoryManager) (address : Int) : Outcome MemoryManager :=
  if m.word_size = 0 then Outcome.undefinedBehaviour
  else
    let offset := Int.tdiv (address - m.start) m.word_size
    Outcome.returns { m with node := combine_holes (free.mark offset m.node) }

/-- First loop of `updateBitmap`: every node pushes `!hole` into `temp_vec` once per word
of its `size` (no push for a size that is zero or negative). -/
def updateBitmap.expand : List LL_Node → List Bool
  | [] => []
  | temp :: next => List.replicate temp.size.toNat (!temp.hole) ++ updateBitmap.expand next

/-- Inner loop of `updateBitmap`, `for (j = 0; j < 8; j++)`: `steps` iterations are left,
`cnt` is the `uint8_t` accumulator. -/
def updateBitmap.byte (temp_vec : List Bool) (i : Nat) : Nat → Nat → Nat → Nat
  | 0, _, cnt => cnt
  | steps + 1, j, cnt =>
    updateBitmap.byte temp_vec i steps (j + 1)
      (if i + j < temp_vec.length then
        (cnt + 2 ^ j * (if temp_vec.getD (i + j) false then 1 else 0)) % 256
      else cnt)

/-- Outer loop of `updateBitmap`, `for (i = 0; i < temp_vec.size(); i += 8)`, writing one
byte at `pos` per round; a write past the end of the array is undefined.  A cell of the
array is `none` as long as nothing has been written to it. -/
def updateBitmap.pack (temp_vec : List Bool) :
    Nat → Nat → Nat → List (Option Nat) → Outcome (List (Option Nat))
  | 0, _, _, _ => Outcome.outOfFuel
  | fuel + 1, i, pos, bit_map =>
    if i < temp_vec.length then
      if pos < bit_map.length then
        updateBitmap.pack temp_vec fuel (i + 8) (pos + 1)
          (bit_map.set pos (some (updateBitmap.byte temp_vec i 8 0 0)))
      else Outcome.undefinedBehaviour
    else Outcome.returns bit_map

/-- Function `MemoryManager::updateBitmap` (and `getBitmap`, which returns its array): an
array of `2 + l` bytes, `l = ceil(size_in_words / 8)`, is allocated uninitialised, the
body is packed from `temp_vec`, and the two header cells receive `1 & ((1 << 8) - 1)` and
`(1 >> 8) & ((1 << 8) - 1)`.  The outer loop advances `i` by 8, so `temp_vec.length + 1`
rounds are enough for it to finish. -/
def updateBitmap (m : MemoryManager) : Outcome (List (Option Nat)) :=
  let l := (m.size_in_words + 7) / 8
  let temp_vec := updateBitmap.expand m.node
  match updateBitmap.pack temp_vec (temp_vec.length + 1) 0 2 (List.replicate (2 + l) none) with
  | Outcome.returns bit_map =>
    Outcome.returns ((bit_map.set 0 (some (1 &&& ((1 <<< 8) - 1)))).set 1
      (some ((1 >>> 8) &&& ((1 <<< 8) - 1))))
  | Outcome.outOfFuel => Outcome.outOfFuel
  | Outcome.undefinedBehaviour => Outcome.undefinedBehaviour

/-- A call of `initialize` as its caller sees it: the function is `void` and contains no
`throw`, `exit` or error code, so the call returns and leaves the new state. -/
def initializeCall (m : MemoryManager) (sizeInwords : Nat) (brk : Int) : Outcome MemoryManager :=
  Outcome.returns (initializeArena m sizeInwords brk)

/-! ## Derived notions used to state the properties -/

/-- The `(offset, length)` pairs `updateList` pushes into `temp_vec`, hole by hole. -/
def holePairs : List LL_Node → List (Nat × Nat)
  | [] => []
  | temp :: next =>
    if temp.hole then (toU16 temp.head, toU16 temp.size) :: holePairs next
    else holePairs next

/-- Cells of the array for a sequence of pairs: offset, length, offset, length, ... -/
def encodePairs : List (Nat × Nat) → List Nat
  | [] => []
  | p :: ps => p.1 :: p.2 :: encodePairs ps

/-- The array `getList` hands to the allocator for a sequence of holes: the count, then
the cells of the pairs. -/
def holeArray (holes : List (Nat × Nat)) : List Nat := holes.length :: encodePairs holes

/-- Loop shared by the two policies: `better len diff` is the comparison on `diff`. -/
def fitLoop (better : Int → Int → Bool) (sizeInWords : Int) (holeList : List Nat) (length : Nat) :
    Nat → Nat → Int → Int → Outcome Int
  | 0, _, _, _ => Outcome.outOfFuel
  | fuel + 1, i, diff, offset =>
    if i < length * 2 then
      if (holeList.getD i 0 : Int) ≥ sizeInWords ∧ better (holeList.getD i 0) diff = true then
        fitLoop better sizeInWords holeList length fuel ((i + 2) % 65536)
          (holeList.getD i 0) (holeList.getD (i - 1) 0)
      else fitLoop better sizeInWords holeList length fuel ((i + 2) % 65536) diff offset
    else Outcome.returns offset

/-- What the shared loop computes, on the pairs themselves: the running `(diff, offset)`
after the holes `ps`. -/
def select (better : Int → Int → Bool) (req : Int) : List (Nat × Nat) → Int × Int → Int × Int
  | [], acc => acc
  | p :: ps, acc =>
    if (p.2 : Int) ≥ req ∧ better p.2 acc.1 = true then select better req ps (p.2, p.1)
    else select better req ps acc

/-- Segments laid end to end: the first starts at word `a`, each one starts where the
one before it ends, and the last ends at word `b`. -/
def Contiguous : Int → List LL_Node → Int → Prop
  | a, [], b => a = b
  | a, n :: rest, b => n.head = a ∧ Contiguous (n.head + n.size) rest b

/-- Offsets strictly increasing along the ledger. -/
def Increasing (node : List LL_Node) : Prop := node.Pairwise (fun x y => x.head < y.head)

/-- Coverage of the arena of `wordCount` words: offsets strictly increasing, first offset
`0`, every segment ending where the next starts, last segment ending at `wordCount`. -/
def Coverage (wordCount : Int) (node : List LL_Node) : Prop :=
  Contiguous 0 node wordCount ∧ Increasing node

/-- No two consecutive segments are both holes. -/
def NoAdjacentHoles : List LL_Node → Prop
  | x :: y :: rest => ¬ (x.hole = true ∧ y.hole = true) ∧ NoAdjacentHoles (y :: rest)
  | _ => True

/-- First segment of the ledger whose word range contains word `w`. -/
def segmentOf (node : List LL_Node) (w : Int) : Option LL_Node :=
  node.find? (fun n => decide (n.head ≤ w) && decide (w < n.head + n.size))

/-- Allocation state of word `w`: `some true` for a word of a hole, `some false` for a
word of an allocated segment, `none` for a word of no segment. -/
def wordState (node : List LL_Node) (w : Int) : Option Bool :=
  (segmentOf node w).map (fun n => n.hole)

/-- States reachable from `initialize(wordCount)` on a fresh manager by calls of
`allocate` (under either policy, with a byte size satisfying `sizeOk`) and of `free`
that return. -/
inductive Reachable (sizeOk : Nat → Prop) (wordSize wordCount : Nat) : MemoryManager → Prop
  | initial (junkSize junkMem : Nat) (brk : Int) :
      Reachable sizeOk wordSize wordCount
        (initializeArena (construct wordSize junkSize junkMem) wordCount brk)
  | afterAllocate (policy : Allocator) (fuel sizeInBytes : Nat) (m m' : MemoryManager)
      (addr : Int) :
      Reachable sizeOk wordSize wordCount m → (policy = bestFit ∨ policy = worstFit) →
      sizeOk sizeInBytes → allocate policy fuel m sizeInBytes = Outcome.returns (addr, m') →
      Reachable sizeOk wordSize wordCount m'
  | afterFree (address : Int) (m m' : MemoryManager) :
      Reachable sizeOk wordSize wordCount m → free m address = Outcome.returns m' →
      Reachable sizeOk wordSize wordCount m'

/-- States reachable as for `Reachable`, with the number of `allocate` calls that have
returned since `initialize`. -/
inductive ReachableIn (sizeOk : Nat → Prop) (wordSize wordCount : Nat) :
    Nat → MemoryManager → Prop
  | initial (junkSize junkMem : Nat) (brk : Int) :
      ReachableIn sizeOk wordSize wordCount 0
        (initializeArena (construct wordSize junkSize junkMem) wordCount brk)
  | afterAllocate (policy : Allocator) (fuel sizeInBytes k : Nat) (m m' : MemoryManager)
      (addr : Int) :
      ReachableIn sizeOk wordSize wordCount k m → (policy = bestFit ∨ policy = worstFit) →
      sizeOk sizeInBytes → allocate policy fuel m sizeInBytes = Outcome.returns (addr, m') →
      ReachableIn sizeOk wordSize wordCount (k + 1) m'
  | afterFree (address : Int) (k : Nat) (m m' : MemoryManager) :
      ReachableIn sizeOk wordSize wordCount k m → free m address = Outcome.returns m' →
      ReachableIn sizeOk wordSize wordCount k m'

/-- The exact ceiling of `sizeInBytes / wordSize`: the word count of a request. -/
def ceilDiv (sizeInBytes wordSize : Nat) : Int :=
  ((sizeInBytes + wordSize - 1) / wordSize : Nat)

/-- Ledger invariant carried along the reachable states: coverage with no negative size. -/
def Inv (wordCount : Int) (node : List LL_Node) : Prop :=
  Coverage wordCount node ∧ ∀ n ∈ node, 0 ≤ n.size

/-- The ledger `allocate` works on: the existing one, or the single hole covering the
arena that it creates first when there is none. -/
def ledgerOf (m : MemoryManager) : List LL_Node :=
  if m.node = [] then [{ head := 0, hole := true, size := wrap32 m.size_in_words }]
  else m.node

instance decContiguous : (a : Int) → (node : List LL_Node) → (b : Int) →
    Decidable (Contiguous a node b)
  | a, [], b => inferInstanceAs (Decidable (a = b))
  | a, n :: rest, b =>
    @instDecidableAnd (n.head = a) (Contiguous (n.head + n.size) rest b) _
      (decContiguous (n.head + n.size) rest b)

instance decIncreasing (node : List LL_Node) : Decidable (Increasing node) :=
  inferInstanceAs (Decidable (List.Pairwise (fun x y : LL_Node => x.head < y.head) node))

instance decCoverage (wc : Int) (node : List LL_Node) : Decidable (Coverage wc node) :=
  inferInstanceAs (Decidable (Contiguous 0 node wc ∧ Increasing node))

instance decNoAdjacentHoles : (node : List LL_Node) → Decidable (NoAdjacentHoles node)
  | [] => isTrue trivial
  | [_] => isTrue trivial
  | x :: y :: rest =>
    @instDecidableAnd (¬ (x.hole = true ∧ y.hole = true)) (NoAdjacentHoles (y :: rest)) _
      (decNoAdjacentHoles (y :: rest))

/-- A manager of a 20-word arena with 4-byte words at address 4096, right after
`initialize(20)`. -/
def fresh20 : MemoryManager := initializeArena (construct 4 0 0) 20 4096

/-- The 20-word arena after `allocate(16)`: words 0 to 3 allocated, the rest one hole. -/
def used20 : MemoryManager :=
  { word_size := 4, size_in_words := 20, mem := 80, start := 4096,
    node := [{ head := 0, hole := false, size := 4 }, { head := 4, hole := true, size := 16 }] }

/-- A hole list of 32768 one-word holes at the even offsets `0, 2, ..., 65534`. -/
def manyHoles : List (Nat × Nat) := (List.range 32768).map (fun i => (2 * i, 1))

/-- Three holes, the last two of the same length. -/
def sampleHoles : List (Nat × Nat) := [(0, 4), (4, 8), (12, 8)]

/-- The 20-word arena after `allocate(0)` on the fresh manager: a zero-length allocated
segment and the hole, both starting at offset `0`. -/
def zeroAlloc20 : MemoryManager :=
  { word_size := 4, size_in_words := 20, mem := 80, start := 4096,
    node := [{ head := 0, hole := false, size := 0 }, { head := 0, hole := true, size := 20 }] }

/-- Value of a byte whose bit `j` is the `j`-th element of `bits`. -/
def bitsValue : List Bool → Nat
  | [] => 0
  | b :: bs => (if b then 1 else 0) + 2 * bitsValue bs

/-- The segments `allocate` puts in the place of the hole `n` for a request of `l` words. -/
def claimed (n : LL_Node) (l : Int) : List LL_Node :=
  if n.size = l then [{ n with hole := false }]
  else [{ head := n.head, hole := false, size := l },
        { head := n.head + l, hole := true, size := n.size - l }]

/-- The first `n` words of the arena as one-word segments; word `i` is a hole when
`i < j`, allocated otherwise. -/
def wordRun (n j : Nat) : List LL_Node :=
  (List.range n).map
    (fun (i : Nat) => ({ head := (i : Int), hole := decide (i < j), size := 1 } : LL_Node))

/-- Ledger of the 65535-word arena after `k` one-word allocations: `k` allocated words,
then the remaining hole. -/
def filled (k : Nat) : List LL_Node :=
  wordRun k 0 ++ [{ head := (k : Int), hole := true, size := 65535 - (k : Int) }]

/-- Ledger of the 65535-word arena after 32768 one-word allocations followed by `free` of
the first `j` of them. -/
def released (j : Nat) : List LL_Node :=
  wordRun 32768 j ++ [{ head := 32768, hole := true, size := 32767 }]

/-- The manager of a 65535-word arena with 1-byte words at address 4096 holding the
ledger `node`. -/
def arena65535 (node : List LL_Node) : MemoryManager :=
  { word_size := 1, size_in_words := 65535, mem := 65535, start := 4096, node := node }

/-- A 4-word arena with words of `2^31` bytes at address 4096 after two calls
`allocate(1)`: words 0 and 1 allocated, words 2 and 3 one hole. -/
def wide4 : MemoryManager :=
  { word_size := 2147483648, size_in_words := 4, mem := 0, start := 4096,
    node := [{ head := 0, hole := false, size := 1 }, { head := 1, hole := false, size := 1 },
             { head := 2, hole := true, size := 2 }] }

/-! ## Lemmas and theorems -/

theorem encodePairs_length (ps : List (Nat × Nat)) : (encodePairs ps).length = 2 * ps.length := by
  induction ps with
  | nil => rfl
  | cons p ps ih => simp [encodePairs, ih]; omega

theorem encodePairs_append (ps qs : List (Nat × Nat)) :
    encodePairs (ps ++ qs) = encodePairs ps ++ encodePairs qs := by
  induction ps with
  | nil => rfl
  | cons p ps ih => simp [encodePairs, ih]

theorem encodePairs_take (ps : List (Nat × Nat)) (k : Nat) :
    (encodePairs ps).take (2 * k) = encodePairs (ps.take k) := by
  induction ps generalizing k with
  | nil => simp [encodePairs]
  | cons p ps ih =>
    cases k with
    | zero => simp [encodePairs]
    | succ k =>
      have : 2 * (k + 1) = (2 * k + 1) + 1 := by omega
      simp [encodePairs, this, ih]

theorem scan_eq (node : List LL_Node) (l : Nat) (temp_vec : List Nat) (hl : l < 65536) :
    updateList.scan node l temp_vec
      = ((l + (holePairs node).length) % 65536, temp_vec ++ encodePairs (holePairs node)) := by
  induction node generalizing l temp_vec with
  | nil => simp [updateList.scan, holePairs, encodePairs, Nat.mod_eq_of_lt hl]
  | cons temp next ih =>
    unfold updateList.scan holePairs
    split
    · rw [ih _ _ (Nat.mod_lt _ (by norm_num))]
      simp [encodePairs]
      omega
    · exact ih l temp_vec hl

theorem copy_never_returns (temp_vec : List Nat) (l : Nat) (hl : 65536 ≤ l * 2) (fuel : Nat) :
    ∀ (counter : Nat) (list : List Nat), counter < 65536 →
      updateList.copy temp_vec l fuel counter list = Outcome.outOfFuel := by
  induction fuel with
  | zero => intro counter list _; rfl
  | succ fuel ih =>
    intro counter list hc
    unfold updateList.copy
    rw [if_pos (by omega)]
    exact ih _ _ (Nat.mod_lt _ (by norm_num))

theorem copy_short (temp_vec : List Nat) (l : Nat) (hl : l * 2 < 65536) (fuel : Nat) :
    ∀ (counter : Nat) (list : List Nat), counter + fuel ≤ l * 2 →
      updateList.copy temp_vec l fuel counter list = Outcome.outOfFuel := by
  induction fuel with
  | zero => intro counter list _; rfl
  | succ fuel ih =>
    intro counter list hc
    unfold updateList.copy
    rw [if_pos (by omega), Nat.mod_eq_of_lt (by omega)]
    exact ih _ _ (by omega)

theorem copy_returns (temp_vec : List Nat) (l : Nat) (hl : l * 2 < 65536)
    (hv : l * 2 ≤ temp_vec.length) (fuel : Nat) :
    ∀ (counter : Nat) (list : List Nat), counter ≤ l * 2 → l * 2 < counter + fuel →
      list.length = l * 2 + 1 →
      updateList.copy temp_vec l fuel counter list
        = Outcome.returns (list.take (counter + 1) ++ (temp_vec.take (l * 2)).drop counter) := by
  induction fuel with
  | zero => intro counter list h1 h2 _; omega
  | succ fuel ih =>
    intro counter list h1 h2 hlen
    unfold updateList.copy
    by_cases hc : counter < l * 2
    · rw [if_pos hc, Nat.mod_eq_of_lt (by omega), ih _ _ (by omega) (by omega) (by simpa using hlen)]
      congr 1
      have hd : counter < (temp_vec.take (l * 2)).length := by
        rw [List.length_take]; omega
      rw [List.drop_eq_getElem_cons hd, @List.take_succ _ (list.set (counter + 1) (temp_vec.getD counter 0)) (counter + 1)]
      have hg : temp_vec.getD counter 0 = (temp_vec.take (l * 2))[counter] := by
        rw [List.getD_eq_getElem _ _ (by omega)]
        simp
      have hs : (list.set (counter + 1) (temp_vec.getD counter 0)).take (counter + 1)
          = list.take (counter + 1) := by
        rw [List.set_take, List.set_eq_of_length_le (by rw [List.length_take]; omega)]
      have hs2 : (list.set (counter + 1) (temp_vec.getD counter 0))[counter + 1]?
          = some (temp_vec.getD counter 0) := by
        rw [List.getElem?_set_self (by omega)]
      rw [hs, hs2, hg]
      simp
    · rw [if_neg hc]
      have : counter = l * 2 := by omega
      subst this
      rw [List.take_of_length_le (by omega), List.drop_of_length_le (by rw [List.length_take]; omega)]
      simp

theorem updateList_eq (fuel : Nat) (node : List LL_Node) :
    updateList fuel node =
      if ((holePairs node).length % 65536) * 2 < 65536 ∧
          ((holePairs node).length % 65536) * 2 < fuel then
        Outcome.returns (holeArray ((holePairs node).take ((holePairs node).length % 65536)))
      else Outcome.outOfFuel := by
  unfold updateList
  rw [scan_eq node 0 [] (by norm_num)]
  simp only [Nat.zero_add, List.nil_append]
  have hle : (holePairs node).length % 65536 ≤ (holePairs node).length := Nat.mod_le _ _
  by_cases h1 : ((holePairs node).length % 65536) * 2 < 65536
  · by_cases h2 : ((holePairs node).length % 65536) * 2 < fuel
    · rw [if_pos ⟨h1, h2⟩, copy_returns _ _ h1 (by rw [encodePairs_length]; omega) fuel 0 _
        (by omega) (by omega) (by simp; omega)]
      have : (holePairs node).length % 65536 * 2 = 2 * ((holePairs node).length % 65536) := by
        omega
      simp [holeArray, this, encodePairs_take, hle]
    · rw [if_neg (fun h => h2 h.2)]
      exact copy_short _ _ h1 fuel 0 _ (by omega)
  · rw [if_neg (fun h => h1 h.1)]
    exact copy_never_returns _ _ (by omega) fuel 0 _ (by norm_num)

theorem updateList_returns (fuel : Nat) (node : List LL_Node)
    (hcount : (holePairs node).length < 32768) (hfuel : 2 * (holePairs node).length < fuel) :
    updateList fuel node = Outcome.returns (holeArray (holePairs node)) := by
  rw [updateList_eq, Nat.mod_eq_of_lt (by omega), if_pos ⟨by omega, by omega⟩, List.take_length]

theorem updateList_inv (fuel : Nat) (node : List LL_Node) (list : List Nat)
    (h : updateList fuel node = Outcome.returns list) :
    ∃ holes : List (Nat × Nat), list = holeArray holes ∧ holes.length < 32768 ∧
      holes.length < fuel ∧ ∀ p ∈ holes, p ∈ holePairs node := by
  rw [updateList_eq] at h
  split at h
  · rename_i hc
    refine ⟨_, (Outcome.returns.inj h).symm, ?_, ?_, fun p hp => List.mem_of_mem_take hp⟩
    · rw [List.length_take]; omega
    · rw [List.length_take]; omega
  · cases h

theorem bestFit_loop_eq (sizeInWords : Int) (holeList : List Nat) (length fuel : Nat) :
    ∀ (i : Nat) (diff offset : Int),
      bestFit.loop sizeInWords holeList length fuel i diff offset
        = fitLoop (fun a b => decide (a < b)) sizeInWords holeList length fuel i diff offset := by
  induction fuel with
  | zero => intros; rfl
  | succ fuel ih =>
    intro i diff offset
    unfold bestFit.loop fitLoop
    simp only [ih, decide_eq_true_eq]

theorem worstFit_loop_eq (sizeInWords : Int) (holeList : List Nat) (length fuel : Nat) :
    ∀ (i : Nat) (diff offset : Int),
      worstFit.loop sizeInWords holeList length fuel i diff offset
        = fitLoop (fun a b => decide (a > b)) sizeInWords holeList length fuel i diff offset := by
  induction fuel with
  | zero => intros; rfl
  | succ fuel ih =>
    intro i diff offset
    unfold worstFit.loop fitLoop
    simp only [ih, decide_eq_true_eq]

theorem getD_encodePairs (holes : List (Nat × Nat)) (k : Nat) (hk : k < holes.length) :
    (encodePairs holes).getD (2 * k) 0 = holes[k].1 ∧
    (encodePairs holes).getD (2 * k + 1) 0 = holes[k].2 := by
  induction holes generalizing k with
  | nil => simp at hk
  | cons p ps ih =>
    cases k with
    | zero => simp [encodePairs]
    | succ k =>
      have h := ih k (by simpa using hk)
      have e1 : 2 * (k + 1) = (2 * k + 1) + 1 := by omega
      have e2 : 2 * (k + 1) + 1 = ((2 * k + 1) + 1) + 1 := by omega
      constructor
      · rw [e1]; simpa [encodePairs] using h.1
      · rw [e2]; simpa [encodePairs] using h.2

theorem fitLoop_never_returns (better : Int → Int → Bool) (req : Int) (holeList : List Nat)
    (length : Nat) (hl : 65536 ≤ length * 2) (fuel : Nat) :
    ∀ (i : Nat) (diff offset : Int), i < 65536 →
      fitLoop better req holeList length fuel i diff offset = Outcome.outOfFuel := by
  induction fuel with
  | zero => intros; rfl
  | succ fuel ih =>
    intro i diff offset hi
    unfold fitLoop
    rw [if_pos (by omega)]
    split
    · exact ih _ _ _ (Nat.mod_lt _ (by norm_num))
    · exact ih _ _ _ (Nat.mod_lt _ (by norm_num))

theorem fitLoop_short (better : Int → Int → Bool) (req : Int) (holes : List (Nat × Nat))
    (hl : holes.length * 2 < 65536) (fuel : Nat) :
    ∀ (k : Nat) (diff offset : Int), k + fuel ≤ holes.length →
      fitLoop better req (encodePairs holes) holes.length fuel (2 * k + 1) diff offset
        = Outcome.outOfFuel := by
  induction fuel with
  | zero => intros; rfl
  | succ fuel ih =>
    intro k diff offset hk
    unfold fitLoop
    have e : (2 * k + 1 + 2) % 65536 = 2 * (k + 1) + 1 := by omega
    rw [if_pos (by omega), e]
    split
    · exact ih _ _ _ (by omega)
    · exact ih _ _ _ (by omega)

theorem fitLoop_returns (better : Int → Int → Bool) (req : Int) (holes : List (Nat × Nat))
    (hl : holes.length * 2 < 65536) (fuel : Nat) :
    ∀ (k : Nat) (diff offset : Int), k ≤ holes.length → holes.length < k + fuel →
      fitLoop better req (encodePairs holes) holes.length fuel (2 * k + 1) diff offset
        = Outcome.returns (select better req (holes.drop k) (diff, offset)).2 := by
  induction fuel with
  | zero => intro k diff offset h1 h2; omega
  | succ fuel ih =>
    intro k diff offset h1 h2
    unfold fitLoop
    by_cases hk : k < holes.length
    · have e : (2 * k + 1 + 2) % 65536 = 2 * (k + 1) + 1 := by omega
      have e0 : 2 * k + 1 - 1 = 2 * k := by omega
      obtain ⟨g1, g2⟩ := getD_encodePairs holes k hk
      rw [if_pos (by omega), e, e0, g1, g2, List.drop_eq_getElem_cons hk]
      simp only [select]
      split
      · exact ih _ _ _ (by omega) (by omega)
      · exact ih _ _ _ (by omega) (by omega)
    · rw [if_neg (by omega), List.drop_of_length_le (by omega)]
      rfl

theorem fitLoop_eq (better : Int → Int → Bool) (req : Int) (holes : List (Nat × Nat))
    (hl : holes.length < 32768) (fuel : Nat) (diff offset : Int) :
    fitLoop better req (encodePairs holes) holes.length fuel 1 diff offset
      = if holes.length < fuel then Outcome.returns (select better req holes (diff, offset)).2
        else Outcome.outOfFuel := by
  split
  · rename_i h
    simpa using fitLoop_returns better req holes (by omega) fuel 0 diff offset (by omega) (by omega)
  · rename_i h
    simpa using fitLoop_short better req holes (by omega) fuel 0 diff offset (by omega)

theorem select_nofit (better : Int → Int → Bool) (req : Int) (ps : List (Nat × Nat))
    (acc : Int × Int) (h : ∀ p ∈ ps, (p.2 : Int) < req) : select better req ps acc = acc := by
  induction ps generalizing acc with
  | nil => rfl
  | cons p ps ih =>
    unfold select
    have hp := h p (List.mem_cons_self _ _)
    rw [if_neg (fun hc => absurd hc.1 (by omega))]
    exact ih acc (fun q hq => h q (List.mem_cons_of_mem _ hq))

theorem select_mem (better : Int → Int → Bool) (req : Int) (ps : List (Nat × Nat))
    (acc : Int × Int) :
    select better req ps acc = acc ∨
      ∃ p ∈ ps, req ≤ (p.2 : Int) ∧ select better req ps acc = ((p.2 : Int), (p.1 : Int)) := by
  induction ps generalizing acc with
  | nil => exact Or.inl rfl
  | cons p ps ih =>
    unfold select
    split
    · rename_i hc
      rcases ih ((p.2 : Int), (p.1 : Int)) with h | ⟨q, hq, hr, he⟩
      · exact Or.inr ⟨p, List.mem_cons_self _ _, hc.1, h⟩
      · exact Or.inr ⟨q, List.mem_cons_of_mem _ hq, hr, he⟩
    · rcases ih acc with h | ⟨q, hq, hr, he⟩
      · exact Or.inl h
      · exact Or.inr ⟨q, List.mem_cons_of_mem _ hq, hr, he⟩

theorem select_worst_spec (req : Int) (ps : List (Nat × Nat)) (acc : Int × Int) :
    (select (fun a b => decide (a > b)) req ps acc = acc ∧
        ∀ q ∈ ps, req ≤ (q.2 : Int) → (q.2 : Int) ≤ acc.1) ∨
    (∃ (front : List (Nat × Nat)) (o d : Nat) (back : List (Nat × Nat)), ps = front ++ (o, d) :: back ∧
        select (fun a b => decide (a > b)) req ps acc = ((d : Int), (o : Int)) ∧
        req ≤ (d : Int) ∧ acc.1 < (d : Int) ∧
        (∀ q ∈ front, req ≤ (q.2 : Int) → q.2 < d) ∧
        (∀ q ∈ back, req ≤ (q.2 : Int) → q.2 ≤ d)) := by
  induction ps generalizing acc with
  | nil => exact Or.inl ⟨rfl, by simp⟩
  | cons p ps ih =>
    unfold select
    split
    · rename_i hc
      have hgt : acc.1 < (p.2 : Int) := by simpa using hc.2
      rcases ih ((p.2 : Int), (p.1 : Int)) with ⟨h, hall⟩ | ⟨front, o, d, back, he, hs, hr, hd, hf, hb⟩
      · refine Or.inr ⟨[], p.1, p.2, ps, rfl, h, hc.1, hgt, by simp, ?_⟩
        intro q hq hqr
        have := hall q hq hqr
        simp only at this
        omega
      · refine Or.inr ⟨p :: front, o, d, back, by simp [he], hs, hr, ?_, ?_, hb⟩
        · simp only at hd; omega
        · intro q hq hqr
          rcases List.mem_cons.1 hq with rfl | hq
          · simp only at hd; omega
          · exact hf q hq hqr
    · rename_i hc
      have hp : req ≤ (p.2 : Int) → (p.2 : Int) ≤ acc.1 := by
        intro hr
        by_contra hlt
        exact hc ⟨hr, by simpa using hlt⟩
      rcases ih acc with ⟨h, hall⟩ | ⟨front, o, d, back, he, hs, hr, hd, hf, hb⟩
      · refine Or.inl ⟨h, ?_⟩
        intro q hq hqr
        rcases List.mem_cons.1 hq with rfl | hq
        · exact hp hqr
        · exact hall q hq hqr
      · refine Or.inr ⟨p :: front, o, d, back, by simp [he], hs, hr, hd, ?_, hb⟩
        intro q hq hqr
        rcases List.mem_cons.1 hq with rfl | hq
        · have := hp hqr; omega
        · exact hf q hq hqr

theorem select_best_spec (req : Int) (ps : List (Nat × Nat)) (acc : Int × Int) :
    (select (fun a b => decide (a < b)) req ps acc = acc ∧
        ∀ q ∈ ps, req ≤ (q.2 : Int) → acc.1 ≤ (q.2 : Int)) ∨
    (∃ (front : List (Nat × Nat)) (o d : Nat) (back : List (Nat × Nat)), ps = front ++ (o, d) :: back ∧
        select (fun a b => decide (a < b)) req ps acc = ((d : Int), (o : Int)) ∧
        req ≤ (d : Int) ∧ (d : Int) < acc.1 ∧
        (∀ q ∈ front, req ≤ (q.2 : Int) → d < q.2) ∧
        (∀ q ∈ back, req ≤ (q.2 : Int) → d ≤ q.2)) := by
  induction ps generalizing acc with
  | nil => exact Or.inl ⟨rfl, by simp⟩
  | cons p ps ih =>
    unfold select
    split
    · rename_i hc
      have hgt : (p.2 : Int) < acc.1 := by simpa using hc.2
      rcases ih ((p.2 : Int), (p.1 : Int)) with ⟨h, hall⟩ | ⟨front, o, d, back, he, hs, hr, hd, hf, hb⟩
      · refine Or.inr ⟨[], p.1, p.2, ps, rfl, h, hc.1, hgt, by simp, ?_⟩
        intro q hq hqr
        have := hall q hq hqr
        simp only at this
        omega
      · refine Or.inr ⟨p :: front, o, d, back, by simp [he], hs, hr, ?_, ?_, hb⟩
        · simp only at hd; omega
        · intro q hq hqr
          rcases List.mem_cons.1 hq with rfl | hq
          · simp only at hd; omega
          · exact hf q hq hqr
    · rename_i hc
      have hp : req ≤ (p.2 : Int) → acc.1 ≤ (p.2 : Int) := by
        intro hr
        by_contra hlt
        exact hc ⟨hr, by simpa using hlt⟩
      rcases ih acc with ⟨h, hall⟩ | ⟨front, o, d, back, he, hs, hr, hd, hf, hb⟩
      · refine Or.inl ⟨h, ?_⟩
        intro q hq hqr
        rcases List.mem_cons.1 hq with rfl | hq
        · exact hp hqr
        · exact hall q hq hqr
      · refine Or.inr ⟨p :: front, o, d, back, by simp [he], hs, hr, hd, ?_, hb⟩
        intro q hq hqr
        rcases List.mem_cons.1 hq with rfl | hq
        · have := hp hqr; omega
        · exact hf q hq hqr

theorem bestFit_eq (fuel : Nat) (req : Int) (holes : List (Nat × Nat))
    (hl : holes.length < 32768) :
    bestFit fuel req (holeArray holes)
      = if holes.length < fuel then
          Outcome.returns (select (fun a b => decide (a < b)) req holes (32767, -1)).2
        else Outcome.outOfFuel := by
  simp only [bestFit, holeArray]
  rw [bestFit_loop_eq, fitLoop_eq _ _ _ hl]

theorem worstFit_eq (fuel : Nat) (req : Int) (holes : List (Nat × Nat))
    (hl : holes.length < 32768) :
    worstFit fuel req (holeArray holes)
      = if holes.length < fuel then
          Outcome.returns (select (fun a b => decide (a > b)) req holes (-1, -1)).2
        else Outcome.outOfFuel := by
  simp only [worstFit, holeArray]
  rw [worstFit_loop_eq, fitLoop_eq _ _ _ hl]

theorem policy_mem (policy : Allocator) (hp : policy = bestFit ∨ policy = worstFit)
    (fuel : Nat) (req : Int) (holes : List (Nat × Nat)) (hl : holes.length < 32768) (o : Int)
    (h : policy fuel req (holeArray holes) = Outcome.returns o) :
    o = -1 ∨ ∃ p ∈ holes, req ≤ (p.2 : Int) ∧ o = (p.1 : Int) := by
  rcases hp with rfl | rfl
  · rw [bestFit_eq _ _ _ hl] at h
    split at h
    · have h := Outcome.returns.inj h
      rcases select_mem (fun a b => decide (a < b)) req holes (32767, -1) with e | ⟨p, hp, hr, e⟩
      · rw [e] at h; exact Or.inl h.symm
      · rw [e] at h; exact Or.inr ⟨p, hp, hr, h.symm⟩
    · cases h
  · rw [worstFit_eq _ _ _ hl] at h
    split at h
    · have h := Outcome.returns.inj h
      rcases select_mem (fun a b => decide (a > b)) req holes (-1, -1) with e | ⟨p, hp, hr, e⟩
      · rw [e] at h; exact Or.inl h.symm
      · rw [e] at h; exact Or.inr ⟨p, hp, hr, h.symm⟩
    · cases h

theorem policy_nofit (policy : Allocator) (hp : policy = bestFit ∨ policy = worstFit)
    (fuel : Nat) (req : Int) (holes : List (Nat × Nat)) (hl : holes.length < 32768)
    (hfuel : holes.length < fuel) (hno : ∀ p ∈ holes, (p.2 : Int) < req) :
    policy fuel req (holeArray holes) = Outcome.returns (-1) := by
  rcases hp with rfl | rfl
  · rw [bestFit_eq _ _ _ hl, if_pos hfuel, select_nofit _ _ _ _ hno]
  · rw [worstFit_eq _ _ _ hl, if_pos hfuel, select_nofit _ _ _ _ hno]

theorem wrap32_id (x : Int) (h1 : -2147483648 ≤ x) (h2 : x < 2147483648) : wrap32 x = x := by
  unfold wrap32
  omega

theorem claimNode_append (o l : Int) (front : List LL_Node) (n : LL_Node) (back : List LL_Node)
    (hfront : ∀ x ∈ front, x.head ≠ o) (hn : n.head = o) :
    claimNode o l (front ++ n :: back)
      = some (front ++ (if n.size = l then [{ n with hole := false }]
                        else [{ head := n.head, hole := false, size := l },
                              { head := wrap32 (n.head + l), hole := true,
                                size := wrap32 (n.size - l) }]) ++ back) := by
  induction front with
  | nil =>
    simp only [List.nil_append, claimNode]
    rw [if_neg (by simp [hn])]
    split <;> simp
  | cons x front ih =>
    have hx := hfront x (List.mem_cons_self _ _)
    have e : (x :: front) ++ n :: back = x :: (front ++ n :: back) := rfl
    rw [e, claimNode, if_pos hx, ih (fun y hy => hfront y (List.mem_cons_of_mem _ hy))]
    simp

theorem claimNode_append_small (o l : Int) (front : List LL_Node) (n : LL_Node)
    (back : List LL_Node) (hfront : ∀ x ∈ front, x.head ≠ o) (hn : n.head = o)
    (h1 : 0 ≤ n.head) (h2 : 0 ≤ l) (h3 : l ≤ n.size) (h4 : n.head + n.size < 2147483648) :
    claimNode o l (front ++ n :: back) = some (front ++ claimed n l ++ back) := by
  rw [claimNode_append o l front n back hfront hn, wrap32_id _ (by omega) (by omega),
    wrap32_id _ (by omega) (by omega)]
  rfl

theorem contiguous_append (a b : Int) (xs ys : List LL_Node) :
    Contiguous a (xs ++ ys) b ↔ ∃ c, Contiguous a xs c ∧ Contiguous c ys b := by
  induction xs generalizing a with
  | nil => simp [Contiguous]
  | cons x xs ih =>
    show (x.head = a ∧ Contiguous (x.head + x.size) (xs ++ ys) b) ↔
      ∃ c, (x.head = a ∧ Contiguous (x.head + x.size) xs c) ∧ Contiguous c ys b
    rw [ih]
    constructor
    · rintro ⟨h, c, h1, h2⟩; exact ⟨c, ⟨h, h1⟩, h2⟩
    · rintro ⟨c, ⟨h, h1⟩, h2⟩; exact ⟨h, c, h1, h2⟩

theorem contiguous_bounds (a b : Int) (node : List LL_Node) (hc : Contiguous a node b)
    (hs : ∀ n ∈ node, 0 ≤ n.size) : a ≤ b ∧ ∀ n ∈ node, a ≤ n.head ∧ n.head + n.size ≤ b := by
  induction node generalizing a with
  | nil => simp [Contiguous] at hc; subst hc; simp
  | cons x xs ih =>
    obtain ⟨hx, hrest⟩ := hc
    have h0 := hs x (List.mem_cons_self _ _)
    obtain ⟨h1, h2⟩ := ih _ hrest (fun n hn => hs n (List.mem_cons_of_mem _ hn))
    refine ⟨by omega, ?_⟩
    intro n hn
    rcases List.mem_cons.1 hn with rfl | hn
    · omega
    · have := h2 n hn; omega

theorem coverage_head_nonneg (wc : Int) (node : List LL_Node) (hc : Coverage wc node) :
    ∀ n ∈ node, 0 ≤ n.head := by
  obtain ⟨h1, h2⟩ := hc
  cases node with
  | nil => simp
  | cons x xs =>
    intro n hn
    have hx : x.head = 0 := h1.1
    rcases List.mem_cons.1 hn with rfl | hn
    · omega
    · have := (List.pairwise_cons.1 h2).1 n hn; omega

theorem increasing_front (front back : List LL_Node) (n : LL_Node)
    (h : Increasing (front ++ n :: back)) : ∀ x ∈ front, x.head ≠ n.head := by
  intro x hx
  have := (List.pairwise_append.1 h).2.2 x hx n (List.mem_cons_self _ _)
  omega

theorem toU16_eq (x : Int) (h0 : 0 ≤ x) (h1 : x < 65536) : (toU16 x : Int) = x := by
  unfold toU16; omega

theorem toU16_le (x : Int) (h0 : 0 ≤ x) : (toU16 x : Int) ≤ x := by
  unfold toU16; omega

theorem holePairs_mem (node : List LL_Node) (p : Nat × Nat) (hp : p ∈ holePairs node) :
    ∃ n ∈ node, n.hole = true ∧ p = (toU16 n.head, toU16 n.size) := by
  induction node with
  | nil => simp [holePairs] at hp
  | cons x xs ih =>
    unfold holePairs at hp
    split at hp
    · rename_i hx
      rcases List.mem_cons.1 hp with rfl | hp
      · exact ⟨x, List.mem_cons_self _ _, hx, rfl⟩
      · obtain ⟨n, hn, h1, h2⟩ := ih hp
        exact ⟨n, List.mem_cons_of_mem _ hn, h1, h2⟩
    · obtain ⟨n, hn, h1, h2⟩ := ih hp
      exact ⟨n, List.mem_cons_of_mem _ hn, h1, h2⟩

theorem ilog2_go_spec (fuel : Nat) : ∀ n, n ≤ fuel → 1 ≤ n →
    2 ^ ilog2.go fuel n ≤ n ∧ n < 2 ^ (ilog2.go fuel n + 1) := by
  induction fuel with
  | zero => intro n h1 h2; omega
  | succ fuel ih =>
    intro n h1 h2
    unfold ilog2.go
    by_cases h : 2 ≤ n
    · rw [if_pos h]
      obtain ⟨a, b⟩ := ih (n / 2) (by omega) (by omega)
      rw [Nat.pow_succ, Nat.pow_succ]
      rw [Nat.pow_succ] at b
      constructor <;> omega
    · rw [if_neg h]
      have : n = 1 := by omega
      subst this
      simp

theorem ilog2_spec (n : Nat) (h : 1 ≤ n) : 2 ^ ilog2 n ≤ n ∧ n < 2 ^ (ilog2 n + 1) :=
  ilog2_go_spec n n (le_refl _) h

theorem roundDiv_bounds (x y : Nat) : x / y ≤ roundDiv x y ∧ roundDiv x y ≤ x / y + 1 := by
  unfold roundDiv
  split <;> omega

theorem ceil_formula (s ws q r : Nat) (hws : 1 ≤ ws) (h : s = ws * q + r) (hr : r < ws) :
    (s + ws - 1) / ws = q + (if r = 0 then 0 else 1) := by
  by_cases h0 : r = 0
  · rw [if_pos h0]
    have e : s + ws - 1 = ws * q + (ws - 1) := by omega
    rw [e, Nat.mul_add_div (by omega), Nat.div_eq_of_lt (by omega)]
  · rw [if_neg h0]
    have e : s + ws - 1 = ws * (q + 1) + (r - 1) := by
      rw [Nat.mul_add, Nat.mul_one]; omega
    rw [e, Nat.mul_add_div (by omega), Nat.div_eq_of_lt (by omega)]

theorem ceilQuot_exact (s ws : Nat) (hs : s ≤ 16777216) (hws1 : 1 ≤ ws) (hws2 : ws < 16777216) :
    ceilQuot s ws = (s + ws - 1) / ws := by
  have hdm : s = ws * (s / ws) + s % ws := (Nat.div_add_mod s ws).symm
  have hr : s % ws < ws := Nat.mod_lt _ (by omega)
  have hceil := ceil_formula s ws (s / ws) (s % ws) hws1 hdm hr
  unfold ceilQuot
  by_cases h0 : s = 0
  · rw [if_pos h0]
    subst h0
    rw [Nat.zero_add, Nat.div_eq_of_lt (by omega)]
  rw [if_neg h0]
  by_cases hlt : s < ws
  · rw [if_pos hlt, hceil, Nat.div_eq_of_lt hlt, Nat.mod_eq_of_lt hlt, if_neg h0]
  rw [if_neg hlt]
  have hQ : 1 ≤ s / ws := (Nat.le_div_iff_mul_le (by omega)).2 (by omega)
  obtain ⟨e, he⟩ : ∃ e, ilog2 (s / ws) = e := ⟨_, rfl⟩
  obtain ⟨hE1, hE2⟩ := ilog2_spec (s / ws) hQ
  rw [he] at hE1 hE2
  rw [he]
  have hmul : ws * (s / ws) ≤ s := Nat.mul_div_le s ws
  by_cases h23 : 23 ≤ e
  · rw [if_pos h23]
    have hp : 2 ^ 23 ≤ 2 ^ e := Nat.pow_le_pow_right (by norm_num) h23
    have h1 : ws * 2 ^ 23 ≤ 16777216 :=
      le_trans (le_trans (Nat.mul_le_mul_left ws (le_trans hp hE1)) hmul) hs
    have hws3 : ws ≤ 2 := by
      norm_num at h1
      omega
    have hQle : s / ws ≤ 16777216 := le_trans (Nat.div_le_self _ _) hs
    have he24 : e ≤ 24 := by
      by_contra hc
      have : 2 ^ 25 ≤ 2 ^ e := Nat.pow_le_pow_right (by norm_num) (by omega)
      norm_num at this
      omega
    have hcases : ws = 1 ∨ ws = 2 := by omega
    rcases hcases with rfl | rfl
    · rw [Nat.div_one] at hE1 hE2
      have he2 : e = 23 ∨ e = 24 := by omega
      rcases he2 with rfl | rfl
      · simp [roundDiv, Nat.mod_one]
      · have : s = 16777216 := by
          norm_num at hE1
          omega
        subst this
        decide
    · have h2 : 2 ^ 23 ≤ s / 2 := le_trans hp hE1
      have : s = 16777216 := by
        norm_num at h2
        omega
      subst this
      have he3 : e = 23 := by
        norm_num at hE1 hE2
        by_contra hc
        have : e = 24 := by omega
        subst this
        norm_num at hE1
      subst he3
      decide
  · rw [if_neg h23]
    obtain ⟨j, hj⟩ : ∃ j, 23 - e = j := ⟨_, rfl⟩
    rw [hj, hceil]
    have hPE : 2 ^ j * 2 ^ e = 8388608 := by
      rw [← Nat.pow_add]
      have : j + e = 23 := by omega
      rw [this]
    have hP : 1 ≤ 2 ^ j := Nat.one_le_two_pow
    obtain ⟨P, hPdef⟩ : ∃ P, 2 ^ j = P := ⟨_, rfl⟩
    obtain ⟨E, hEdef⟩ : ∃ E, 2 ^ e = E := ⟨_, rfl⟩
    rw [hPdef] at hP hPE ⊢
    rw [hEdef] at hPE hE1
    obtain ⟨Q, hQdef⟩ : ∃ Q, s / ws = Q := ⟨_, rfl⟩
    obtain ⟨r, hrdef⟩ : ∃ r, s % ws = r := ⟨_, rfl⟩
    rw [hQdef] at hdm hE1 hmul ⊢
    rw [hrdef] at hdm hr ⊢
    have hA : s * P = ws * (Q * P) + r * P := by
      rw [hdm]; ring
    have hd : s * P / ws = Q * P + r * P / ws := by
      rw [hA, Nat.mul_add_div (by omega)]
    have hm : s * P % ws = r * P % ws := by
      rw [hA, Nat.mul_add_mod]
    have hd0 : r * P / ws < P := by
      apply Nat.div_lt_of_lt_mul
      exact Nat.mul_lt_mul_of_pos_right hr (by omega)
    obtain ⟨hb1, hb2⟩ := roundDiv_bounds (s * P) ws
    by_cases hr0 : r = 0
    · rw [if_pos hr0]
      have hM : roundDiv (s * P) ws = Q * P := by
        unfold roundDiv
        rw [hm, hd, hr0, Nat.zero_mul, Nat.zero_mod, Nat.zero_div, Nat.add_zero,
          if_neg (by
            intro h
            rcases h with h | ⟨h, _⟩ <;> omega)]
      rw [hM]
      have e1 : Q * P + P - 1 = P * Q + (P - 1) := by
        rw [Nat.mul_comm]; omega
      rw [e1, Nat.mul_add_div (by omega), Nat.div_eq_of_lt (by omega)]
    · rw [if_neg hr0]
      have hwsP : ws < 2 * P := by
        have h1 : ws * E ≤ ws * Q := Nat.mul_le_mul_left ws hE1
        have h2 : ws * E < 2 * P * E := by
          have : 2 * P * E = 16777216 := by
            rw [Nat.mul_assoc, hPE]
          omega
        exact Nat.lt_of_mul_lt_mul_right h2
      have hlow : Q * P + 1 ≤ roundDiv (s * P) ws := by
        by_cases hd1 : 1 ≤ r * P / ws
        · omega
        · have hz : r * P / ws = 0 := Nat.lt_one_iff.1 (not_le.1 hd1)
          have hsmall : r * P < ws := by
            by_contra hc
            have : 1 ≤ r * P / ws := (Nat.le_div_iff_mul_le (by omega)).2 (by omega)
            omega
          have hrP : P ≤ r * P := Nat.le_mul_of_pos_left P (by omega)
          unfold roundDiv
          rw [hm, hd, hz, Nat.mod_eq_of_lt hsmall, if_pos (Or.inl (by omega))]
      have hhigh : roundDiv (s * P) ws ≤ Q * P + P := by omega
      apply Nat.div_eq_of_lt_le
      · rw [Nat.add_mul, Nat.one_mul]; omega
      · have : (Q + 1).succ * P = Q * P + P + P := by
          rw [Nat.succ_mul, Nat.add_mul, Nat.one_mul]
        rw [this]; omega

theorem toFloat_small (s : Nat) (hs : s ≤ 16777216) : toFloat s = s := by
  unfold toFloat
  by_cases h : s < 16777216
  · rw [if_pos h]
  · have : s = 16777216 := by omega
    subst this
    decide

theorem toFloat_large (n : Nat) (hn : 16777216 ≤ n) : 16777216 ≤ toFloat n := by
  unfold toFloat
  by_cases h : n < 16777216
  · omega
  · rw [if_neg h]
    obtain ⟨h1, h2⟩ := ilog2_spec n (by omega)
    obtain ⟨e, he⟩ : ∃ e, ilog2 n = e := ⟨_, rfl⟩
    rw [he] at h1 h2 ⊢
    have he24 : 24 ≤ e := by
      by_contra hc
      have : 2 ^ (e + 1) ≤ 2 ^ 24 := Nat.pow_le_pow_right (by norm_num) (by omega)
      norm_num at this
      omega
    obtain ⟨k, hk⟩ : ∃ k, e - 23 = k := ⟨_, rfl⟩
    rw [hk]
    have hek : e = 23 + k := by omega
    have hpk : 2 ^ e = 8388608 * 2 ^ k := by
      rw [hek, Nat.pow_add]
    have hk1 : 2 ≤ 2 ^ k := by
      have : 2 ^ 1 ≤ 2 ^ k := Nat.pow_le_pow_right (by norm_num) (by omega)
      simpa using this
    have hq : 8388608 ≤ n / 2 ^ k :=
      (Nat.le_div_iff_mul_le (by omega)).2 (by omega)
    have hr := (roundDiv_bounds n (2 ^ k)).1
    calc 16777216 = 8388608 * 2 := by norm_num
      _ ≤ 8388608 * 2 ^ k := Nat.mul_le_mul_left _ hk1
      _ ≤ roundDiv n (2 ^ k) * 2 ^ k := Nat.mul_le_mul_right _ (le_trans hq hr)

theorem wordsFor_exact (s ws : Nat) (hs : s ≤ 16777216) (hws : 1 ≤ ws) :
    wordsFor s ws = ceilDiv s ws := by
  have hbound : (s + ws - 1) / ws < 2147483648 := by
    have h1 : (s + ws - 1) / ws ≤ (s + ws) / ws := Nat.div_le_div_right (by omega)
    have h2 : (s + ws) / ws = s / ws + 1 := Nat.add_div_right s (by omega)
    have h3 : s / ws ≤ s := Nat.div_le_self _ _
    omega
  have hq : ceilQuot (toFloat s) (toFloat ws) = (s + ws - 1) / ws := by
    rw [toFloat_small s hs]
    by_cases hw : ws < 16777216
    · rw [toFloat_small ws (by omega)]
      exact ceilQuot_exact s ws hs hws hw
    · have hf := toFloat_large ws (by omega)
      have hdm : s = ws * 0 + s := by omega
      by_cases h0 : s = 0
      · subst h0
        unfold ceilQuot
        rw [if_pos rfl, Nat.zero_add, Nat.div_eq_of_lt (by omega)]
      · have hc := ceil_formula s ws 0 s hws hdm
        by_cases hsw : s < ws
        · rw [hc hsw, if_neg h0]
          unfold ceilQuot
          rw [if_neg h0]
          by_cases hlt : s < toFloat ws
          · rw [if_pos hlt]
          · have h1 : s = 16777216 := by omega
            have h2 : toFloat ws = 16777216 := by omega
            rw [h2, h1]
            decide
        · have h1 : s = 16777216 := by omega
          have h2 : ws = 16777216 := by omega
          subst h1 h2
          decide
  unfold wordsFor ceilDiv
  rw [hq, if_pos hbound]

theorem wordsFor_pos (sizeInBytes word_size : Nat) (h1 : 1 ≤ sizeInBytes) (h2 : 0 < word_size)
    (h3 : sizeInBytes ≤ 16777216) : 1 ≤ wordsFor sizeInBytes word_size := by
  rw [wordsFor_exact _ _ h3 h2]
  unfold ceilDiv
  have : 1 ≤ (sizeInBytes + word_size - 1) / word_size :=
    (Nat.le_div_iff_mul_le h2).2 (by omega)
  exact_mod_cast this

theorem claim_preserves (wc : Int) (front back : List LL_Node) (n : LL_Node) (l : Int)
    (hinv : Inv wc (front ++ n :: back)) (hl : 1 ≤ l) (hfit : l ≤ n.size) :
    Inv wc (front ++ (if n.size = l then [{ n with hole := false }]
                      else [{ head := n.head, hole := false, size := l },
                            { head := n.head + l, hole := true, size := n.size - l }]) ++ back) := by
  obtain ⟨⟨hc, hi⟩, hs⟩ := hinv
  obtain ⟨c, hc1, hc2⟩ := (contiguous_append _ _ _ _).1 hc
  obtain ⟨hhead, hback⟩ := hc2
  obtain ⟨hi1, hi2, hi3⟩ := List.pairwise_append.1 hi
  have hi2' := List.pairwise_cons.1 hi2
  have hbs : ∀ y ∈ back, 0 ≤ y.size := fun y hy => hs y (by simp [hy])
  have hbb := (contiguous_bounds _ _ _ hback hbs).2
  have hns : 0 ≤ n.size := hs n (by simp)
  rw [List.append_assoc]
  by_cases he : n.size = l
  · rw [if_pos he]
    refine ⟨⟨(contiguous_append _ _ _ _).2 ⟨c, hc1, hhead, hback⟩, ?_⟩, ?_⟩
    · refine List.pairwise_append.2 ⟨hi1, ?_, ?_⟩
      · exact List.pairwise_cons.2 ⟨hi2'.1, hi2'.2⟩
      · intro x hx y hy
        rcases List.mem_cons.1 hy with rfl | hy
        · exact hi3 x hx n (List.mem_cons_self _ _)
        · exact hi3 x hx y (List.mem_cons_of_mem _ hy)
    · intro y hy
      rcases List.mem_append.1 hy with hy | hy
      · exact hs y (by simp [hy])
      · rcases List.mem_cons.1 hy with rfl | hy
        · exact hns
        · exact hbs y hy
  · rw [if_neg he]
    refine ⟨⟨(contiguous_append _ _ _ _).2 ⟨c, hc1, hhead, rfl, ?_⟩, ?_⟩, ?_⟩
    · have e : n.head + l + (n.size - l) = n.head + n.size := by omega
      simpa [e] using hback
    · refine List.pairwise_append.2 ⟨hi1, ?_, ?_⟩
      · refine List.pairwise_cons.2 ⟨?_, List.pairwise_cons.2 ⟨?_, hi2'.2⟩⟩
        · intro y hy
          rcases List.mem_cons.1 hy with rfl | hy
          · simp only; omega
          · exact hi2'.1 y hy
        · intro y hy
          have := (hbb y hy).1
          simp only; omega
      · intro x hx y hy
        have hxn := hi3 x hx n (List.mem_cons_self _ _)
        rcases List.mem_cons.1 hy with rfl | hy
        · exact hxn
        · rcases List.mem_cons.1 hy with rfl | hy
          · simp only; omega
          · exact hi3 x hx y (List.mem_cons_of_mem _ hy)
    · intro y hy
      rcases List.mem_append.1 hy with hy | hy
      · exact hs y (by simp [hy])
      · rcases List.mem_cons.1 hy with rfl | hy
        · simp only; omega
        · rcases List.mem_cons.1 hy with rfl | hy
          · simp only; omega
          · exact hbs y hy

theorem mark_mem (o : Int) (node : List LL_Node) (x : LL_Node) (hx : x ∈ free.mark o node) :
    ∃ y ∈ node, x.head = y.head ∧ x.size = y.size := by
  induction node with
  | nil => simp [free.mark] at hx
  | cons z zs ih =>
    unfold free.mark at hx
    rcases List.mem_cons.1 hx with rfl | hx
    · refine ⟨z, List.mem_cons_self _ _, ?_⟩
      split <;> exact ⟨rfl, rfl⟩
    · obtain ⟨y, hy, h⟩ := ih hx
      exact ⟨y, List.mem_cons_of_mem _ hy, h⟩

theorem mark_contiguous (o a b : Int) (node : List LL_Node) (h : Contiguous a node b) :
    Contiguous a (free.mark o node) b := by
  induction node generalizing a with
  | nil => exact h
  | cons z zs ih =>
    unfold free.mark
    obtain ⟨h1, h2⟩ := h
    split
    · exact ⟨h1, ih _ h2⟩
    · exact ⟨h1, ih _ h2⟩

theorem mark_increasing (o : Int) (node : List LL_Node) (h : Increasing node) :
    Increasing (free.mark o node) := by
  induction node with
  | nil => exact h
  | cons z zs ih =>
    unfold free.mark
    obtain ⟨h1, h2⟩ := List.pairwise_cons.1 h
    refine List.pairwise_cons.2 ⟨?_, ih h2⟩
    intro y hy
    obtain ⟨y', hy', e1, _⟩ := mark_mem o zs y hy
    have := h1 y' hy'
    split
    · show z.head < y.head
      omega
    · omega

theorem mark_inv (o wc : Int) (node : List LL_Node) (h : Inv wc node) :
    Inv wc (free.mark o node) := by
  refine ⟨⟨mark_contiguous _ _ _ _ h.1.1, mark_increasing _ _ h.1.2⟩, ?_⟩
  intro x hx
  obtain ⟨y, hy, _, e⟩ := mark_mem o node x hx
  rw [e]; exact h.2 y hy

theorem inv_single (wc : Nat) : Inv wc [{ head := 0, hole := true, size := wc }] := by
  refine ⟨⟨⟨rfl, ?_⟩, List.pairwise_singleton _ _⟩, ?_⟩
  · show (0 : Int) + (wc : Int) = wc
    omega
  · intro n hn
    rw [List.mem_singleton.1 hn]
    exact Int.ofNat_nonneg wc

theorem allocate_cases (policy : Allocator) (fuel : Nat) (m : MemoryManager) (sizeInBytes : Nat)
    (addr : Int) (m' : MemoryManager)
    (h : allocate policy fuel m sizeInBytes = Outcome.returns (addr, m')) :
    m.word_size ≠ 0 ∧ ∃ list o, updateList fuel (ledgerOf m) = Outcome.returns list ∧
      policy fuel (wordsFor sizeInBytes m.word_size) list = Outcome.returns o ∧
      ((o = -1 ∧ addr = 0 ∧ m' = { m with node := ledgerOf m }) ∨
       (o ≠ -1 ∧ ∃ node2, claimNode o (wordsFor sizeInBytes m.word_size) (ledgerOf m) = some node2 ∧
          addr = m.start + (o * m.word_size) % 4294967296 ∧ m' = { m with node := node2 })) := by
  unfold allocate at h
  split at h
  · cases h
  · rename_i hw
    refine ⟨hw, ?_⟩
    simp only at h
    split at h
    · cases h
    · cases h
    · rename_i list hlist
      split at h
      · cases h
      · cases h
      · rename_i o ho
        refine ⟨list, o, hlist, ho, ?_⟩
        split at h
        · rename_i ho1
          have h := Outcome.returns.inj h
          exact Or.inl ⟨ho1, (congrArg Prod.fst h).symm, (congrArg Prod.snd h).symm⟩
        · rename_i ho1
          split at h
          · cases h
          · rename_i node2 hc
            have h := Outcome.returns.inj h
            exact Or.inr ⟨ho1, node2, hc, (congrArg Prod.fst h).symm, (congrArg Prod.snd h).symm⟩

theorem ledgerOf_eq (m : MemoryManager) (hwc : m.size_in_words < 65536) :
    ledgerOf m = if m.node = [] then
        [{ head := 0, hole := true, size := (m.size_in_words : Int) }]
      else m.node := by
  unfold ledgerOf
  rw [wrap32_id _ (by omega) (by omega)]

theorem ledgerOf_ne_nil (m : MemoryManager) : ledgerOf m ≠ [] := by
  unfold ledgerOf
  split
  · simp
  · assumption

theorem inv_ledgerOf (m : MemoryManager) (hwc : m.size_in_words < 65536)
    (hinv : m.node = [] ∨ Inv m.size_in_words m.node) :
    Inv m.size_in_words (ledgerOf m) := by
  rw [ledgerOf_eq m hwc]
  split
  · exact inv_single _
  · rcases hinv with h0 | h1
    · contradiction
    · exact h1

/-- One returning call of `allocate` with `1 ≤ sizeInBytes ≤ 2^24` on a covering ledger of
fewer than 65536 words: either the policy found no hole, or a hole `n` of the ledger was
claimed for the exact word count of the request. -/
theorem allocate_step (policy : Allocator) (hp : policy = bestFit ∨ policy = worstFit)
    (fuel : Nat) (m : MemoryManager) (sizeInBytes : Nat) (addr : Int) (m' : MemoryManager)
    (hs1 : 1 ≤ sizeInBytes) (hs2 : sizeInBytes ≤ 16777216)
    (hwc : m.size_in_words < 65536) (hinv : Inv m.size_in_words (ledgerOf m))
    (h : allocate policy fuel m sizeInBytes = Outcome.returns (addr, m')) :
    (addr = 0 ∧ m' = { m with node := ledgerOf m }) ∨
    (∃ front n back, ledgerOf m = front ++ n :: back ∧ n.hole = true ∧
      wordsFor sizeInBytes m.word_size ≤ n.size ∧
      addr = m.start + (n.head * m.word_size) % 4294967296 ∧
      m' = { m with node := front ++ claimed n (wordsFor sizeInBytes m.word_size) ++ back }) := by
  obtain ⟨hw, list, o, hlist, hpol, hcase⟩ := allocate_cases _ _ _ _ _ _ h
  rcases hcase with ⟨_, ha, hm⟩ | ⟨ho, node2, hclaim, ha, hm⟩
  · exact Or.inl ⟨ha, hm⟩
  · right
    obtain ⟨holes, rfl, hlen, _, hsub⟩ := updateList_inv _ _ _ hlist
    rcases policy_mem policy hp _ _ _ hlen o hpol with h1 | ⟨p, hpm, hreq, hop⟩
    · exact absurd h1 ho
    · obtain ⟨n, hn, hhole, rfl⟩ := holePairs_mem _ _ (hsub p hpm)
      have hb := (contiguous_bounds _ _ _ hinv.1.1 hinv.2).2 n hn
      have hs := hinv.2 n hn
      have e1 : (toU16 n.head : Int) = n.head := toU16_eq _ (by omega) (by omega)
      have e2 : (toU16 n.size : Int) = n.size := toU16_eq _ (by omega) (by omega)
      simp only [e1, e2] at hreq hop
      have hl := wordsFor_pos sizeInBytes m.word_size hs1 (Nat.pos_of_ne_zero hw) hs2
      obtain ⟨front, back, hsplit⟩ := List.append_of_mem hn
      refine ⟨front, n, back, hsplit, hhole, hreq, by rw [ha, hop], ?_⟩
      have hinc := hinv.1.2
      rw [hsplit] at hclaim hinc
      rw [claimNode_append_small _ _ _ _ _ (by rw [hop]; exact increasing_front _ _ _ hinc)
        hop.symm (by omega) (by omega) hreq (by omega)] at hclaim
      rw [hm, ← Option.some.inj hclaim]

theorem allocate_inv_step (policy : Allocator) (hp : policy = bestFit ∨ policy = worstFit)
    (fuel : Nat) (m : MemoryManager) (sizeInBytes : Nat) (addr : Int) (m' : MemoryManager)
    (hs1 : 1 ≤ sizeInBytes) (hs2 : sizeInBytes ≤ 16777216) (hwc : m.size_in_words < 65536)
    (hinv : m.node = [] ∨ Inv m.size_in_words m.node)
    (h : allocate policy fuel m sizeInBytes = Outcome.returns (addr, m')) :
    m'.size_in_words = m.size_in_words ∧ m'.word_size = m.word_size ∧ m'.node ≠ [] ∧
      Inv m.size_in_words m'.node := by
  have hw := (allocate_cases _ _ _ _ _ _ h).1
  have hinv1 := inv_ledgerOf m hwc hinv
  rcases allocate_step policy hp fuel m sizeInBytes addr m' hs1 hs2 hwc hinv1 h with
    ⟨_, rfl⟩ | ⟨front, n, back, hsplit, _, hfit, _, rfl⟩
  · exact ⟨rfl, rfl, ledgerOf_ne_nil m, hinv1⟩
  · refine ⟨rfl, rfl, ?_, ?_⟩
    · show front ++ claimed n (wordsFor sizeInBytes m.word_size) ++ back ≠ []
      unfold claimed
      split <;> simp
    · rw [hsplit] at hinv1
      exact claim_preserves _ _ _ _ _ hinv1
        (wordsFor_pos _ _ hs1 (Nat.pos_of_ne_zero hw) hs2) hfit

theorem free_inv_step (m m' : MemoryManager) (address : Int)
    (hinv : m.node = [] ∨ Inv m.size_in_words m.node)
    (h : free m address = Outcome.returns m') :
    m'.size_in_words = m.size_in_words ∧ m'.word_size = m.word_size ∧
      m'.node.length = m.node.length ∧ (m'.node = [] ∨ Inv m.size_in_words m'.node) := by
  unfold free at h
  split at h
  · cases h
  · have h := Outcome.returns.inj h
    subst h
    refine ⟨rfl, rfl, ?_, ?_⟩
    · show (combine_holes (free.mark _ m.node)).length = m.node.length
      unfold combine_holes
      generalize Int.tdiv (address - m.start) m.word_size = o
      induction m.node with
      | nil => rfl
      | cons x xs ih => simp [free.mark, ih]
    · rcases hinv with h0 | h1
      · left
        show combine_holes (free.mark _ m.node) = []
        rw [h0]; rfl
      · right
        exact mark_inv _ _ _ h1

/-- What every state reached by `k` returned calls of `allocate` carries: the sizes
`initialize` stored, an empty ledger exactly as long as `k = 0`, and afterwards a ledger
that covers the arena. -/
theorem reachableIn_inv (wordSize wordCount k : Nat) (m : MemoryManager)
    (hwc : wordCount < 65536)
    (h : ReachableIn (fun s => 1 ≤ s ∧ s ≤ 16777216) wordSize wordCount k m) :
    m.size_in_words = wordCount ∧ m.word_size = wordSize ∧ (k = 0 → m.node = []) ∧
      (0 < k → m.node ≠ [] ∧ Inv wordCount m.node) := by
  induction h with
  | initial junkSize junkMem brk =>
    simp [initializeArena, construct, hwc]
  | afterAllocate policy fuel sizeInBytes k m m' addr _ hp hsz hal ih =>
    obtain ⟨e, ew, h0, hi⟩ := ih
    have hinv : m.node = [] ∨ Inv m.size_in_words m.node := by
      rcases Nat.eq_zero_or_pos k with hk | hk
      · exact Or.inl (h0 hk)
      · rw [e]; exact Or.inr (hi hk).2
    have := allocate_inv_step policy hp fuel m sizeInBytes addr m' hsz.1 hsz.2 (by omega)
      hinv hal
    rw [e, ew] at this
    exact ⟨this.1, this.2.1, fun hk => absurd hk (Nat.succ_ne_zero k),
      fun _ => ⟨this.2.2.1, this.2.2.2⟩⟩
  | afterFree address k m m' _ hfr ih =>
    obtain ⟨e, ew, h0, hi⟩ := ih
    have hinv : m.node = [] ∨ Inv m.size_in_words m.node := by
      rcases Nat.eq_zero_or_pos k with hk | hk
      · exact Or.inl (h0 hk)
      · rw [e]; exact Or.inr (hi hk).2
    have := free_inv_step m m' address hinv hfr
    rw [e, ew] at this
    refine ⟨this.1, this.2.1, ?_, ?_⟩
    · intro hk
      have hl := this.2.2.1
      rw [h0 hk] at hl
      exact List.length_eq_zero.1 hl
    · intro hk
      have hne : m'.node ≠ [] := by
        intro hnil
        have hl := this.2.2.1
        rw [hnil] at hl
        exact (hi hk).1 (List.length_eq_zero.1 hl.symm)
      rcases this.2.2.2 with hnil | hinv'
      · exact absurd hnil hne
      · exact ⟨hne, hinv'⟩

theorem reachable_used20 : Reachable (fun s => 1 ≤ s) 4 20 used20 :=
  Reachable.afterAllocate bestFit 3 16 fresh20 used20 4096
    (Reachable.initial 0 0 4096) (Or.inl rfl) (by decide) (by decide)

theorem reachableIn_used20 : ReachableIn (fun s => 1 ≤ s ∧ s ≤ 16777216) 4 20 1 used20 :=
  ReachableIn.afterAllocate bestFit 3 16 0 fresh20 used20 4096
    (ReachableIn.initial 0 0 4096) (Or.inl rfl) (by decide) (by decide)

/-- The two reachability relations describe the same states: `ReachableIn` only counts
the returned calls of `allocate`. -/
theorem reachable_iff_reachableIn (sizeOk : Nat → Prop) (wordSize wordCount : Nat)
    (m : MemoryManager) :
    Reachable sizeOk wordSize wordCount m ↔ ∃ k, ReachableIn sizeOk wordSize wordCount k m := by
  constructor
  · intro h
    induction h with
    | initial junkSize junkMem brk => exact ⟨0, ReachableIn.initial junkSize junkMem brk⟩
    | afterAllocate policy fuel sizeInBytes m m' addr _ hp hsz hal ih =>
      obtain ⟨k, hk⟩ := ih
      exact ⟨k + 1, ReachableIn.afterAllocate policy fuel sizeInBytes k m m' addr hk hp hsz hal⟩
    | afterFree address m m' _ hfr ih =>
      obtain ⟨k, hk⟩ := ih
      exact ⟨k, ReachableIn.afterFree address k m m' hk hfr⟩
  · rintro ⟨k, h⟩
    induction h with
    | initial junkSize junkMem brk => exact Reachable.initial junkSize junkMem brk
    | afterAllocate policy fuel sizeInBytes k m m' addr _ hp hsz hal ih =>
      exact Reachable.afterAllocate policy fuel sizeInBytes m m' addr ih hp hsz hal
    | afterFree address k m m' _ hfr ih =>
      exact Reachable.afterFree address m m' ih hfr

/-- The byte offset of a word inside an arena of at most `2^32` bytes is not changed by
the reduction modulo `2^32`. -/
theorem offset_bytes (o : Int) (wc ws : Nat) (h0 : 0 ≤ o) (h1 : o < wc)
    (h2 : wc * ws ≤ 4294967296) : (o * (ws : Int)) % 4294967296 = o * ws := by
  apply Int.emod_eq_of_lt (Int.mul_nonneg h0 (Int.ofNat_nonneg _))
  rcases Nat.eq_zero_or_pos ws with hz | hp
  · subst hz
    simp
  · have h3 : (o + 1) * (ws : Int) ≤ (wc : Int) * ws :=
      mul_le_mul_of_nonneg_right (by omega) (Int.ofNat_nonneg _)
    have h4 : ((wc * ws : Nat) : Int) ≤ 4294967296 := by exact_mod_cast h2
    have h5 : (0 : Int) < ws := by exact_mod_cast hp
    rw [add_mul, one_mul] at h3
    push_cast at h4
    omega

theorem increasing_head_inj (node : List LL_Node) (h : Increasing node) (x y : LL_Node)
    (hx : x ∈ node) (hy : y ∈ node) (e : x.head = y.head) : x = y := by
  induction node with
  | nil => simp at hx
  | cons z zs ih =>
    obtain ⟨h1, h2⟩ := List.pairwise_cons.1 h
    rcases List.mem_cons.1 hx with hxz | hxs
    · rcases List.mem_cons.1 hy with hyz | hys
      · rw [hxz, hyz]
      · have := h1 y hys
        rw [← hxz] at this
        omega
    · rcases List.mem_cons.1 hy with hyz | hys
      · have := h1 x hxs
        rw [← hyz] at this
        omega
      · exact ih h2 hxs hys

theorem segmentOf_mark (o w : Int) (node : List LL_Node) :
    segmentOf (free.mark o node) w
      = (segmentOf node w).map (fun x => if x.head = o then { x with hole := true } else x) := by
  induction node with
  | nil => rfl
  | cons z zs ih =>
    unfold segmentOf at ih ⊢
    unfold free.mark
    rw [List.find?_cons, List.find?_cons]
    by_cases hz : z.head = o
    · simp only [if_pos hz]
      cases hc : (decide (z.head ≤ w) && decide (w < z.head + z.size))
      · simpa using ih
      · simp [hz]
    · simp only [if_neg hz]
      cases hc : (decide (z.head ≤ w) && decide (w < z.head + z.size))
      · simpa using ih
      · simp [hz]

theorem segmentOf_some (node : List LL_Node) (w : Int) (x : LL_Node)
    (h : segmentOf node w = some x) : x ∈ node ∧ x.head ≤ w ∧ w < x.head + x.size := by
  unfold segmentOf at h
  have h1 := List.mem_of_find?_eq_some h
  have h2 := List.find?_some h
  simp only [Bool.and_eq_true, decide_eq_true_eq] at h2
  exact ⟨h1, h2.1, h2.2⟩

theorem segmentOf_of_covering (a b : Int) (node : List LL_Node) (hc : Contiguous a node b)
    (hi : Increasing node) (n : LL_Node) (hn : n ∈ node) (w : Int) (h1 : n.head ≤ w)
    (h2 : w < n.head + n.size) : segmentOf node w = some n := by
  induction node generalizing a with
  | nil => simp at hn
  | cons z zs ih =>
    obtain ⟨hz, hrest⟩ := hc
    obtain ⟨hlt, hi2⟩ := List.pairwise_cons.1 hi
    unfold segmentOf
    rw [List.find?_cons]
    rcases List.mem_cons.1 hn with rfl | hn
    · simp [h1, h2]
    · have hnot : ¬ (w < z.head + z.size) := by
        cases zs with
        | nil => simp at hn
        | cons y ys =>
          have hy : y.head = z.head + z.size := hrest.1
          have hyn : y.head ≤ n.head := by
            rcases List.mem_cons.1 hn with rfl | hn'
            · exact le_refl _
            · exact le_of_lt ((List.pairwise_cons.1 hi2).1 n hn')
          omega
      have : (decide (z.head ≤ w) && decide (w < z.head + z.size)) = false := by
        simp [hnot]
      rw [this]
      exact ih _ hrest hi2 hn

/-- C3: on a ledger that covers the arena, `free` of the address `start + o * word_size` of
an allocated segment starting at `o` returns, leaves every word of that segment in a hole,
and leaves the allocation state of every other word as it was. -/
theorem free_success (m : MemoryManager) (n : LL_Node) (address : Int)
    (hws : 0 < m.word_size) (hcov : Coverage m.size_in_words m.node)
    (hn : n ∈ m.node) (halloc : n.hole = false)
    (haddr : address = m.start + n.head * m.word_size) :
    ∃ m', free m address = Outcome.returns m' ∧
      (∀ w, n.head ≤ w → w < n.head + n.size → wordState m'.node w = some true) ∧
      (∀ w, ¬ (n.head ≤ w ∧ w < n.head + n.size) → wordState m'.node w = wordState m.node w) := by
  have _ := halloc
  have hoff : Int.tdiv (address - m.start) m.word_size = n.head := by
    rw [haddr, add_sub_cancel_left]
    exact Int.mul_tdiv_cancel _ (by omega)
  refine ⟨{ m with node := free.mark n.head m.node }, ?_, ?_, ?_⟩
  · unfold free
    rw [if_neg (by omega)]
    simp only [hoff, combine_holes]
  · intro w h1 h2
    show wordState (free.mark n.head m.node) w = some true
    unfold wordState
    rw [segmentOf_mark, segmentOf_of_covering _ _ _ hcov.1 hcov.2 n hn w h1 h2]
    simp
  · intro w hw
    show wordState (free.mark n.head m.node) w = wordState m.node w
    unfold wordState
    rw [segmentOf_mark]
    cases hs : segmentOf m.node w with
    | none => rfl
    | some x =>
      obtain ⟨hx, hx1, hx2⟩ := segmentOf_some _ _ _ hs
      have hne : x.head ≠ n.head := by
        intro e
        have := increasing_head_inj _ hcov.2 x n hx hn e
        subst this
        exact hw ⟨hx1, hx2⟩
      simp [hne]

theorem free_success_witness :
    ∃ m', free used20 4096 = Outcome.returns m' ∧
      (∀ w, (0 : Int) ≤ w → w < 0 + 4 → wordState m'.node w = some true) ∧
      (∀ w, ¬ ((0 : Int) ≤ w ∧ w < 0 + 4) → wordState m'.node w = wordState used20.node w) :=
  free_success used20 { head := 0, hole := false, size := 4 } 4096 (by decide) (by decide)
    (by decide) rfl (by decide)

/-- C4 (code evaluated): on the 20-word arena with 4-byte words, `allocate(16)` returns
address 4096 and `free(4096)` then leaves the two consecutive holes `(0,4)` and `(4,16)`;
`getList` reports two holes, not the single hole `(0,20)`: `combine_holes` does nothing. -/
theorem free_leaves_adjacent_holes :
    allocate bestFit 3 fresh20 16 = Outcome.returns (4096, used20) ∧
    free used20 4096 = Outcome.returns
      { used20 with node := [{ head := 0, hole := true, size := 4 },
                             { head := 4, hole := true, size := 16 }] } ∧
    ¬ NoAdjacentHoles [{ head := 0, hole := true, size := 4 },
                       { head := 4, hole := true, size := 16 }] ∧
    updateList 5 [{ head := 0, hole := true, size := 4 }, { head := 4, hole := true, size := 16 }]
      = Outcome.returns [2, 0, 4, 4, 16] := by
  decide

/-- C5 (code evaluated): from the reachable ledger `(0,4,Allocated), (4,16,Hole)`,
`allocate(32)` returns address 4112 and `free(4112)` leaves
`(0,4,Allocated), (4,8,Hole), (12,8,Hole)`, not the ledger before the allocation; the hole
list is `(4,8), (12,8)` instead of `(4,16)`. -/
theorem allocate_free_not_inverse :
    Reachable (fun s => 1 ≤ s) 4 20 used20 ∧
    allocate bestFit 3 used20 32 = Outcome.returns (4112,
      { used20 with node := [{ head := 0, hole := false, size := 4 },
                             { head := 4, hole := false, size := 8 },
                             { head := 12, hole := true, size := 8 }] }) ∧
    free { used20 with node := [{ head := 0, hole := false, size := 4 },
                                { head := 4, hole := false, size := 8 },
                                { head := 12, hole := true, size := 8 }] } 4112
      = Outcome.returns
          { used20 with node := [{ head := 0, hole := false, size := 4 },
                                 { head := 4, hole := true, size := 8 },
                                 { head := 12, hole := true, size := 8 }] } ∧
    [{ head := 0, hole := false, size := 4 }, { head := 4, hole := true, size := 8 },
      { head := 12, hole := true, size := 8 }] ≠ used20.node ∧
    updateList 5 used20.node = Outcome.returns [1, 4, 16] ∧
    updateList 5 [{ head := 0, hole := false, size := 4 }, { head := 4, hole := true, size := 8 },
      { head := 12, hole := true, size := 8 }] = Outcome.returns [2, 4, 8, 12, 8] :=
  ⟨reachable_used20, by decide, by decide, by decide, by decide, by decide⟩

/-- C6 (code evaluated): for the single hole `(0, 40000)` and a request of 4 words `bestFit`
returns `-1` although the hole fits (its length is not below the initial `diff`,
`INT16_MAX`), while `worstFit` returns offset `0`; so `allocate(16)` on a fresh 40000-word
arena returns `nullptr`. -/
theorem bestFit_misses_long_hole :
    bestFit 2 4 [1, 0, 40000] = Outcome.returns (-1) ∧
    worstFit 2 4 [1, 0, 40000] = Outcome.returns 0 ∧
    allocate bestFit 3 (initializeArena (construct 4 0 0) 40000 4096) 16
      = Outcome.returns (0, { initializeArena (construct 4 0 0) 40000 4096 with
          node := [{ head := 0, hole := true, size := 40000 }] }) := by
  decide

theorem manyHoles_length : manyHoles.length = 32768 := by
  simp [manyHoles]

/-- C7 (code evaluated): on the array of the 32768 one-word holes `manyHoles` (16-bit
offsets, lengths and count) and a request of one word, `worstFit` never returns, whatever
the fuel: its `uint16_t` index wraps and stays below `length * 2 = 65536`. -/
theorem worstFit_never_returns_on_manyHoles :
    ¬ ∃ fuel o, worstFit fuel 1 (holeArray manyHoles) = Outcome.returns o := by
  rintro ⟨fuel, o, h⟩
  simp only [worstFit, holeArray] at h
  rw [worstFit_loop_eq, fitLoop_never_returns _ _ _ _ (by rw [manyHoles_length]) fuel 1 _ _
    (by norm_num)] at h
  cases h

/-- Selection made by `worstFit`: for every hole list with fewer than 32768 holes and every
request that at least one hole satisfies, `worstFit` returns the offset of a hole whose
length is at least the request and at least the length of every hole satisfying the
request, and every satisfying hole before it in the list is strictly shorter (it is the
first of the longest). -/
theorem worstFit_selects (fuel : Nat) (req : Int) (holes : List (Nat × Nat))
    (hcount : holes.length < 32768) (hfuel : holes.length < fuel)
    (hfit : ∃ p ∈ holes, req ≤ (p.2 : Int)) :
    ∃ (front : List (Nat × Nat)) (o d : Nat) (back : List (Nat × Nat)),
      holes = front ++ (o, d) :: back ∧
      worstFit fuel req (holeArray holes) = Outcome.returns (o : Int) ∧
      req ≤ (d : Int) ∧
      (∀ q ∈ holes, req ≤ (q.2 : Int) → q.2 ≤ d) ∧
      (∀ q ∈ front, req ≤ (q.2 : Int) → q.2 < d) := by
  rw [worstFit_eq _ _ _ hcount, if_pos hfuel]
  rcases select_worst_spec req holes (-1, -1) with ⟨_, hall⟩ | ⟨front, o, d, back, he, hs, hr, _, hf, hb⟩
  · obtain ⟨p, hp, hpr⟩ := hfit
    have := hall p hp hpr
    simp only at this
    omega
  · refine ⟨front, o, d, back, he, by rw [hs], hr, ?_, hf⟩
    intro q hq hqr
    rw [he] at hq
    rcases List.mem_append.1 hq with hq | hq
    · exact le_of_lt (hf q hq hqr)
    · rcases List.mem_cons.1 hq with rfl | hq
      · exact le_refl _
      · exact hb q hq hqr

/-- Selection made by `bestFit`: for every hole list with fewer than 32768 holes and every
request satisfied by at least one hole shorter than 32767 words, `bestFit` returns the
offset of a hole whose length is at least the request and at most the length of every hole
satisfying the request, and every satisfying hole before it in the list is strictly
longer (it is the first of the shortest). -/
theorem bestFit_selects (fuel : Nat) (req : Int) (holes : List (Nat × Nat))
    (hcount : holes.length < 32768) (hfuel : holes.length < fuel)
    (hfit : ∃ p ∈ holes, req ≤ (p.2 : Int) ∧ p.2 < 32767) :
    ∃ (front : List (Nat × Nat)) (o d : Nat) (back : List (Nat × Nat)),
      holes = front ++ (o, d) :: back ∧
      bestFit fuel req (holeArray holes) = Outcome.returns (o : Int) ∧
      req ≤ (d : Int) ∧
      (∀ q ∈ holes, req ≤ (q.2 : Int) → d ≤ q.2) ∧
      (∀ q ∈ front, req ≤ (q.2 : Int) → d < q.2) := by
  rw [bestFit_eq _ _ _ hcount, if_pos hfuel]
  rcases select_best_spec req holes (32767, -1) with ⟨_, hall⟩ | ⟨front, o, d, back, he, hs, hr, _, hf, hb⟩
  · obtain ⟨p, hp, hpr, hlt⟩ := hfit
    have := hall p hp hpr
    simp only at this
    omega
  · refine ⟨front, o, d, back, he, by rw [hs], hr, ?_, hf⟩
    intro q hq hqr
    rw [he] at hq
    rcases List.mem_append.1 hq with hq | hq
    · exact le_of_lt (hf q hq hqr)
    · rcases List.mem_cons.1 hq with rfl | hq
      · exact le_refl _
      · exact hb q hq hqr

theorem worstFit_selects_witness :
    ∃ (front : List (Nat × Nat)) (o d : Nat) (back : List (Nat × Nat)),
      sampleHoles = front ++ (o, d) :: back ∧
      worstFit 4 2 (holeArray sampleHoles) = Outcome.returns (o : Int) ∧
      (2 : Int) ≤ (d : Int) ∧
      (∀ q ∈ sampleHoles, (2 : Int) ≤ (q.2 : Int) → q.2 ≤ d) ∧
      (∀ q ∈ front, (2 : Int) ≤ (q.2 : Int) → q.2 < d) :=
  worstFit_selects 4 2 sampleHoles (by decide) (by decide) ⟨(0, 4), by decide, by decide⟩

/-- C8 as stated fails: for a request of `0` words and the hole list `(0, 20)` neither
policy returns `-1`, whatever the fuel; both return offset `0`. -/
theorem zero_request_is_fitted :
    (¬ ∃ fuel, bestFit fuel 0 [1, 0, 20] = Outcome.returns (-1)) ∧
    (¬ ∃ fuel, worstFit fuel 0 [1, 0, 20] = Outcome.returns (-1)) ∧
    bestFit 2 0 [1, 0, 20] = Outcome.returns 0 ∧
    worstFit 2 0 [1, 0, 20] = Outcome.returns 0 := by
  refine ⟨?_, ?_, by decide, by decide⟩
  · rintro ⟨fuel, h⟩
    rw [show ([1, 0, 20] : List Nat) = holeArray [(0, 20)] from rfl,
      bestFit_eq _ _ _ (by decide)] at h
    split at h
    · exact absurd (Outcome.returns.inj h) (by decide)
    · cases h
  · rintro ⟨fuel, h⟩
    rw [show ([1, 0, 20] : List Nat) = holeArray [(0, 20)] from rfl,
      worstFit_eq _ _ _ (by decide)] at h
    split at h
    · exact absurd (Outcome.returns.inj h) (by decide)
    · cases h

/-- C8 (amended): for every hole list with fewer than 32768 holes in which no hole has
length at least the request, the empty list included, `bestFit` and `worstFit` both
return `-1`. -/
theorem nofit_returns_sentinel (fuel : Nat) (req : Int) (holes : List (Nat × Nat))
    (hcount : holes.length < 32768) (hfuel : holes.length < fuel)
    (hno : ∀ p ∈ holes, (p.2 : Int) < req) :
    bestFit fuel req (holeArray holes) = Outcome.returns (-1) ∧
    worstFit fuel req (holeArray holes) = Outcome.returns (-1) :=
  ⟨policy_nofit bestFit (Or.inl rfl) fuel req holes hcount hfuel hno,
   policy_nofit worstFit (Or.inr rfl) fuel req holes hcount hfuel hno⟩

theorem nofit_returns_sentinel_witness :
    (bestFit 2 250 (holeArray [(0, 20)]) = Outcome.returns (-1) ∧
      worstFit 2 250 (holeArray [(0, 20)]) = Outcome.returns (-1)) ∧
    (bestFit 1 0 (holeArray []) = Outcome.returns (-1) ∧
      worstFit 1 0 (holeArray []) = Outcome.returns (-1)) :=
  ⟨nofit_returns_sentinel 2 250 [(0, 20)] (by decide) (by decide) (by decide),
   nofit_returns_sentinel 1 0 [] (by decide) (by decide) (by decide)⟩

/-- C9 (code evaluated): on the fresh 20-word arena `allocate(0)` returns the non-null
address 4096 and leaves the ledger `(0,0,Allocated), (0,20,Hole)`; after `shutdown`,
`allocate(16)` builds the ledger `(0,4,Allocated), (4,16,Hole)` over the released arena,
and the next `allocate(16)` returns the non-null address 16. -/
theorem allocate_does_not_fail_fast :
    allocate bestFit 3 fresh20 0 = Outcome.returns (4096,
      { fresh20 with node := [{ head := 0, hole := false, size := 0 },
                              { head := 0, hole := true, size := 20 }] }) ∧
    (shutdown used20).start = 0 ∧ (shutdown used20).node = [] ∧
    allocate bestFit 3 (shutdown used20) 16 = Outcome.returns (0,
      { shutdown used20 with node := [{ head := 0, hole := false, size := 4 },
                                      { head := 4, hole := true, size := 16 }] }) ∧
    allocate bestFit 3
      { shutdown used20 with node := [{ head := 0, hole := false, size := 4 },
                                      { head := 4, hole := true, size := 16 }] } 16
      = Outcome.returns (16,
          { shutdown used20 with node := [{ head := 0, hole := false, size := 4 },
                                          { head := 4, hole := false, size := 4 },
                                          { head := 8, hole := true, size := 12 }] }) := by
  decide

/-- C10 as stated fails, in two ways.  Right after `initialize(20)` the ledger is empty
and `getList` reports no hole; `allocate(1000)` returns `nullptr` but leaves the ledger
`(0,20,Hole)`, for which `getList` reports one hole.  And right after
`initialize(32768)` with 512-byte words a request of 16777217 bytes has the word count
`ceil(16777217 / 512) = 32769`, more than the arena holds; but `allocate` under
`worstFit` computes 32768 in single precision, returns the address 4096 and leaves the
whole arena allocated. -/
theorem failed_allocate_creates_ledger :
    (fresh20.node = [] ∧
     allocate bestFit 3 fresh20 1000 = Outcome.returns (0,
       { fresh20 with node := [{ head := 0, hole := true, size := 20 }] }) ∧
     updateList 3 fresh20.node = Outcome.returns [0] ∧
     updateList 3 [{ head := 0, hole := true, size := 20 }] = Outcome.returns [1, 0, 20]) ∧
    (ceilDiv 16777217 512 = 32769 ∧
     (initializeArena (construct 512 0 0) 32768 4096).node = [] ∧
     allocate worstFit 3 (initializeArena (construct 512 0 0) 32768 4096) 16777217
       = Outcome.returns (4096,
           { initializeArena (construct 512 0 0) 32768 4096 with
             node := [{ head := 0, hole := false, size := 32768 }] })) := by
  refine ⟨by decide, by decide, by decide, by decide⟩

theorem holePairs_small (node : List LL_Node) (l : Int)
    (hno : ∀ n ∈ node, n.hole = true → 0 ≤ n.size ∧ n.size < l) :
    ∀ p ∈ holePairs node, (p.2 : Int) < l := by
  intro p hp
  obtain ⟨n, hn, hh, rfl⟩ := holePairs_mem _ _ hp
  have := hno n hn hh
  have := toU16_le n.size this.1
  show (toU16 n.size : Int) < l
  omega

theorem allocate_nofit_ledgerOf (policy : Allocator)
    (hp : policy = bestFit ∨ policy = worstFit) (fuel : Nat) (m : MemoryManager)
    (sizeInBytes : Nat) (hws : 0 < m.word_size)
    (hcount : (holePairs (ledgerOf m)).length < 32768)
    (hfuel : 2 * (holePairs (ledgerOf m)).length < fuel)
    (hno : ∀ n ∈ ledgerOf m, n.hole = true →
      0 ≤ n.size ∧ n.size < wordsFor sizeInBytes m.word_size) :
    allocate policy fuel m sizeInBytes = Outcome.returns (0, { m with node := ledgerOf m }) := by
  have hu := updateList_returns fuel (ledgerOf m) hcount hfuel
  have hpol := policy_nofit policy hp fuel (wordsFor sizeInBytes m.word_size)
    (holePairs (ledgerOf m)) hcount (by omega) (holePairs_small _ _ hno)
  unfold allocate
  rw [if_neg (by omega)]
  unfold ledgerOf at hu hpol
  simp only [hu, hpol, if_pos]
  rfl

/-- C10 (amended): for `word_size > 0` and `sizeInBytes ≤ 2^24`, under `bestFit` or
`worstFit`.  When the ledger exists and has fewer than 32768 holes, each of a
non-negative length below `ceil(sizeInBytes / word_size)`, `allocate` returns `nullptr`
and the state it was given.  When there is no ledger yet (the state right after
`initialize`) and the arena, of fewer than 65536 words, is shorter than that word count,
`allocate` returns `nullptr` and the state in which the ledger is the single hole
`(0, size_in_words)`. -/
theorem allocate_nofit (policy : Allocator) (hp : policy = bestFit ∨ policy = worstFit)
    (fuel : Nat) (m : MemoryManager) (sizeInBytes : Nat) (hws : 0 < m.word_size)
    (hmax : sizeInBytes ≤ 16777216) :
    (m.node ≠ [] → (holePairs m.node).length < 32768 →
      2 * (holePairs m.node).length < fuel →
      (∀ n ∈ m.node, n.hole = true →
        0 ≤ n.size ∧ n.size < ceilDiv sizeInBytes m.word_size) →
      allocate policy fuel m sizeInBytes = Outcome.returns (0, m)) ∧
    (m.node = [] → m.size_in_words < 65536 →
      (m.size_in_words : Int) < ceilDiv sizeInBytes m.word_size → 3 ≤ fuel →
      allocate policy fuel m sizeInBytes = Outcome.returns (0,
        { m with node := [{ head := 0, hole := true, size := m.size_in_words }] })) := by
  have hw : wordsFor sizeInBytes m.word_size = ceilDiv sizeInBytes m.word_size :=
    wordsFor_exact _ _ hmax hws
  constructor
  · intro hne hcount hfuel hno
    have hled : ledgerOf m = m.node := by
      unfold ledgerOf
      rw [if_neg hne]
    rw [allocate_nofit_ledgerOf policy hp fuel m sizeInBytes hws (by rw [hled]; exact hcount)
      (by rw [hled]; exact hfuel) (by rw [hled, hw]; exact hno), hled]
  · intro hnil hwc hshort hfuel
    have hled : ledgerOf m = [{ head := 0, hole := true, size := m.size_in_words }] := by
      rw [ledgerOf_eq m hwc, if_pos hnil]
    have hlen : (holePairs (ledgerOf m)).length = 1 := by
      rw [hled]
      simp [holePairs]
    rw [allocate_nofit_ledgerOf policy hp fuel m sizeInBytes hws (by omega) (by omega) (by
      rw [hled, hw]
      intro n hn _
      rw [List.mem_singleton.1 hn]
      exact ⟨Int.ofNat_nonneg _, hshort⟩), hled]

theorem allocate_nofit_witness :
    allocate bestFit 3 used20 1000 = Outcome.returns (0, used20) ∧
    allocate bestFit 3 fresh20 1000 = Outcome.returns (0,
      { fresh20 with node := [{ head := 0, hole := true, size := fresh20.size_in_words }] }) :=
  ⟨(allocate_nofit bestFit (Or.inl rfl) 3 used20 1000 (by decide) (by decide)).1
      (by decide) (by decide) (by decide) (by decide),
   (allocate_nofit bestFit (Or.inl rfl) 3 fresh20 1000 (by decide) (by decide)).2
      (by decide) (by decide) (by decide) (by decide)⟩

theorem mark_id (o : Int) (node : List LL_Node) (h : ∀ n ∈ node, n.head = o → n.hole = true) :
    free.mark o node = node := by
  induction node with
  | nil => rfl
  | cons z zs ih =>
    unfold free.mark
    rw [ih (fun n hn => h n (List.mem_cons_of_mem _ hn))]
    by_cases hz : z.head = o
    · have := h z (List.mem_cons_self _ _) hz
      rw [if_pos hz]
      cases z
      simp only at this
      simp [this]
    · rw [if_neg hz]

theorem mark_idem (o : Int) (node : List LL_Node) :
    free.mark o (free.mark o node) = free.mark o node := by
  induction node with
  | nil => rfl
  | cons z zs ih =>
    simp only [free.mark, ih]
    by_cases hz : z.head = o
    · simp [hz]
    · simp [hz]

theorem free_eq (m : MemoryManager) (address : Int) (hws : 0 < m.word_size) :
    free m address = Outcome.returns
      { m with node := free.mark (Int.tdiv (address - m.start) m.word_size) m.node } := by
  unfold free
  rw [if_neg (by omega)]
  rfl

theorem tdiv_out_of_range (a ws wc : Int) (hws : 0 < ws) (hwc : 0 ≤ wc)
    (h : wc * ws ≤ a ∨ a ≤ -ws) : wc ≤ Int.tdiv a ws ∨ Int.tdiv a ws < 0 := by
  rcases h with h | h
  · left
    have ha : 0 ≤ a := le_trans (Int.mul_nonneg hwc (le_of_lt hws)) h
    rw [Int.tdiv_eq_ediv ha (le_of_lt hws)]
    exact (Int.le_ediv_iff_mul_le hws).2 h
  · right
    have hna : 0 ≤ -a := by omega
    have e : Int.tdiv a ws = -(Int.tdiv (-a) ws) := by
      rw [Int.neg_tdiv, neg_neg]
    rw [e, Int.tdiv_eq_ediv hna (le_of_lt hws)]
    have : 1 ≤ (-a) / ws := (Int.le_ediv_iff_mul_le hws).2 (by omega)
    omega

/-- C11 as stated fails: on the ledger `(0,4,Allocated), (4,16,Hole)` at base 4096 with
4-byte words, `free(4097)` (not word-aligned) and `free(4095)` (below the base) both
return normally and release the segment at offset 0. -/
theorem free_accepts_invalid_address :
    free used20 4097 = Outcome.returns
      { used20 with node := [{ head := 0, hole := true, size := 4 },
                             { head := 4, hole := true, size := 16 }] } ∧
    free used20 4095 = Outcome.returns
      { used20 with node := [{ head := 0, hole := true, size := 4 },
                             { head := 4, hole := true, size := 16 }] } := by
  decide

/-- C11 (amended): for `word_size > 0`, `free` returns normally for every address; and on
a ledger that covers the arena with segments of length at least 1, `free` of an address
at or beyond `start + size_in_words * word_size`, or at or below `start - word_size`,
leaves the state unchanged. -/
theorem free_out_of_range (m : MemoryManager) (hws : 0 < m.word_size) :
    (∀ address : Int, ∃ m', free m address = Outcome.returns m') ∧
    (Coverage m.size_in_words m.node → (∀ n ∈ m.node, 1 ≤ n.size) → ∀ address : Int,
      (m.start + m.size_in_words * m.word_size ≤ address ∨
        address ≤ m.start - m.word_size) →
      free m address = Outcome.returns m) := by
  constructor
  · intro address
    exact ⟨_, free_eq m address hws⟩
  · intro hcov hpos address hout
    rw [free_eq m address hws]
    have hb := (contiguous_bounds _ _ _ hcov.1 (fun n hn => by have := hpos n hn; omega)).2
    have ht := tdiv_out_of_range (address - m.start) m.word_size m.size_in_words
      (by exact_mod_cast hws) (Int.ofNat_nonneg _) (by omega)
    rw [mark_id]
    intro n hn e
    have h1 := hb n hn
    have h2 := hpos n hn
    omega

theorem free_out_of_range_witness :
    (∃ m', free used20 4097 = Outcome.returns m') ∧
    free used20 4176 = Outcome.returns used20 ∧ free used20 4092 = Outcome.returns used20 :=
  ⟨(free_out_of_range used20 (by decide)).1 4097,
   (free_out_of_range used20 (by decide)).2 (by decide) (by decide) 4176 (by decide),
   (free_out_of_range used20 (by decide)).2 (by decide) (by decide) 4092 (by decide)⟩

/-- C12 as stated fails: `free` of the address of the hole at offset 4 returns normally
(the function is `void` and signals nothing); and on the reachable ledger
`(0,0,Allocated), (0,20,Hole)`, where offset 0 is the start of a hole, `free(4096)` changes
the ledger. -/
theorem double_free_not_reported :
    (∃ m', free used20 4112 = Outcome.returns m') ∧
    allocate bestFit 3 fresh20 0 = Outcome.returns (4096, zeroAlloc20) ∧
    free zeroAlloc20 4096 = Outcome.returns
      { zeroAlloc20 with node := [{ head := 0, hole := true, size := 0 },
                                  { head := 0, hole := true, size := 20 }] } :=
  ⟨⟨used20, by decide⟩, by decide, by decide⟩

/-- C12 (amended): in every state with `word_size > 0`, `free(a)` returns normally and a
second `free(a)` leaves the state the first one produced; and when every segment that
starts at the word offset of `a` is already a hole, `free(a)` leaves the state
unchanged. -/
theorem double_free_unchanged (m : MemoryManager) (address : Int) (hws : 0 < m.word_size) :
    (∃ m1, free m address = Outcome.returns m1 ∧ free m1 address = Outcome.returns m1) ∧
    ((∀ n ∈ m.node, n.head = Int.tdiv (address - m.start) m.word_size → n.hole = true) →
      free m address = Outcome.returns m) := by
  constructor
  · refine ⟨_, free_eq m address hws, ?_⟩
    have h2 := free_eq
      { m with node := free.mark (Int.tdiv (address - m.start) m.word_size) m.node } address hws
    simp only [mark_idem] at h2
    exact h2
  · intro h
    rw [free_eq m address hws, mark_id _ _ h]

theorem double_free_unchanged_witness :
    (∃ m1, free used20 4112 = Outcome.returns m1 ∧ free m1 4112 = Outcome.returns m1) ∧
    ((∀ n ∈ used20.node, n.head = Int.tdiv (4112 - used20.start) used20.word_size →
        n.hole = true) →
      free used20 4112 = Outcome.returns used20) :=
  double_free_unchanged used20 4112 (by decide)

theorem holePairs_all_holes (node : List LL_Node) (h : ∀ n ∈ node, n.hole = true) :
    (holePairs node).length = node.length := by
  induction node with
  | nil => rfl
  | cons z zs ih =>
    unfold holePairs
    rw [if_pos (h z (List.mem_cons_self _ _))]
    simp [ih (fun n hn => h n (List.mem_cons_of_mem _ hn))]

theorem updateList_never_returns (node : List LL_Node)
    (h : 65536 ≤ ((holePairs node).length % 65536) * 2) (fuel : Nat) :
    updateList fuel node = Outcome.outOfFuel := by
  rw [updateList_eq, if_neg (fun hc => by omega)]

/-- C15 (code evaluated): for the 20-word arena with words 0 to 3 allocated, `getBitmap`
returns the header bytes `1, 0` (the constants `1 & 255` and `(1 >> 8) & 255`), not
`20, 0`; the body is `15, 0, 0`. -/
theorem bitmap_header_is_constant :
    updateBitmap used20 = Outcome.returns [some 1, some 0, some 15, some 0, some 0] ∧
    used20.size_in_words = 20 := by
  decide

/-- C17 as stated fails: `initialize(65536)` on the 20-word arena returns normally, as
every call of this `void` function does, with the state it was given; nothing tells the
caller that the request was refused, and the manager goes on allocating from the old
arena. -/
theorem initialize_too_large_is_silent :
    initializeCall used20 65536 8192 = Outcome.returns used20 ∧
    allocate worstFit 3 (initializeArena used20 65536 8192) 16 = Outcome.returns (4112,
      { used20 with node := [{ head := 0, hole := false, size := 4 },
                             { head := 4, hole := false, size := 4 },
                             { head := 8, hole := true, size := 12 }] }) := by
  decide

/-- C17 (amended): for every prior state, `initialize(wordCount)` with
`wordCount ≥ 65536` returns normally with the state unchanged (word count, memory limit,
base address and ledger as they were), and with `wordCount < 65536` it returns a state
whose word count is `wordCount`. -/
theorem initialize_limit (m : MemoryManager) (wordCount : Nat) (brk : Int) :
    (65536 ≤ wordCount → initializeCall m wordCount brk = Outcome.returns m) ∧
    (wordCount < 65536 → ∃ m', initializeCall m wordCount brk = Outcome.returns m' ∧
      m'.size_in_words = wordCount) := by
  constructor
  · intro h
    unfold initializeCall initializeArena
    rw [if_neg (by omega)]
  · intro h
    refine ⟨_, rfl, ?_⟩
    unfold initializeArena
    rw [if_pos h]
    by_cases hs : m.start = 0
    · simp [hs]
    · simp [hs, shutdown]

theorem initialize_limit_witness :
    (initializeCall used20 70000 8192 = Outcome.returns used20) ∧
    (∃ m', initializeCall used20 100 8192 = Outcome.returns m' ∧ m'.size_in_words = 100) :=
  ⟨(initialize_limit used20 70000 8192).1 (by decide),
   (initialize_limit used20 100 8192).2 (by decide)⟩

theorem bitsValue_lt (bs : List Bool) : bitsValue bs < 2 ^ bs.length := by
  induction bs with
  | nil => simp [bitsValue]
  | cons b bs ih =>
    simp only [bitsValue, List.length_cons, Nat.pow_succ]
    split <;> omega

theorem mark_append (o : Int) (xs ys : List LL_Node) :
    free.mark o (xs ++ ys) = free.mark o xs ++ free.mark o ys := by
  induction xs with
  | nil => rfl
  | cons x xs ih =>
    show free.mark o (x :: (xs ++ ys)) = free.mark o (x :: xs) ++ free.mark o ys
    simp only [free.mark, ih, List.cons_append]

theorem claimed_pos (n : LL_Node) (l : Int) (hl : 1 ≤ l) (hfit : l ≤ n.size) :
    ∀ x ∈ claimed n l, 1 ≤ x.size := by
  intro x hx
  unfold claimed at hx
  split at hx
  · rw [List.mem_singleton.1 hx]
    show 1 ≤ n.size
    omega
  · rcases List.mem_cons.1 hx with rfl | hx
    · exact hl
    · rw [List.mem_singleton.1 hx]
      show 1 ≤ n.size - l
      omega

theorem reachableIn_pos (wordSize wordCount k : Nat) (m : MemoryManager) (h1 : 1 ≤ wordCount)
    (h2 : wordCount < 65536)
    (h : ReachableIn (fun s => 1 ≤ s ∧ s ≤ 16777216) wordSize wordCount k m) :
    ∀ n ∈ m.node, 1 ≤ n.size := by
  induction h with
  | initial junkSize junkMem brk => simp [initializeArena, construct, h2]
  | afterAllocate policy fuel sizeInBytes k m m' addr hr hp hsz hal ih =>
    obtain ⟨e, _, h0, hi⟩ := reachableIn_inv wordSize wordCount k m h2 hr
    have hinv : m.node = [] ∨ Inv m.size_in_words m.node := by
      rcases Nat.eq_zero_or_pos k with hk | hk
      · exact Or.inl (h0 hk)
      · rw [e]; exact Or.inr (hi hk).2
    have hws : 0 < m.word_size := Nat.pos_of_ne_zero (allocate_cases _ _ _ _ _ _ hal).1
    have hinv1 := inv_ledgerOf m (by omega) hinv
    have hpos1 : ∀ n ∈ ledgerOf m, 1 ≤ n.size := by
      rw [ledgerOf_eq m (by omega)]
      split
      · intro n hn
        rw [List.mem_singleton.1 hn, e]
        show (1 : Int) ≤ (wordCount : Int)
        omega
      · exact ih
    rcases allocate_step policy hp fuel m sizeInBytes addr m' hsz.1 hsz.2 (by omega) hinv1
      hal with ⟨_, hm⟩ | ⟨front, n, back, hsplit, _, hfit, _, hm⟩
    · rw [hm]; exact hpos1
    · rw [hm]
      intro x hx
      show 1 ≤ x.size
      have hx' : x ∈ front ++ claimed n (wordsFor sizeInBytes m.word_size) ++ back := hx
      rcases List.mem_append.1 hx' with hx1 | hx1
      · rcases List.mem_append.1 hx1 with hx2 | hx2
        · exact hpos1 x (by rw [hsplit]; simp [hx2])
        · exact claimed_pos n _ (wordsFor_pos _ _ hsz.1 hws hsz.2) hfit x hx2
      · exact hpos1 x (by rw [hsplit]; simp [hx1])
  | afterFree address k m m' hr hfr ih =>
    unfold free at hfr
    split at hfr
    · cases hfr
    · have hfr := Outcome.returns.inj hfr
      subst hfr
      intro x hx
      obtain ⟨y, hy, _, e⟩ := mark_mem _ _ x hx
      rw [e]
      exact ih y hy

/-- C18 as stated fails, in two ways.  Right after `initialize(20)` the ledger is empty,
not a partition of `[0, 20)`, and the first `allocate(16)` returns the non-null address
4096 although no segment, hence no hole, existed before the call.  And with words of
`2^31` bytes, after `initialize(4)` and two calls `allocate(1)` the ledger is
`(0,1,Allocated), (1,1,Allocated), (2,2,Hole)`; the third `allocate(1)` claims word 2 but
returns 4096, the base address, which is the start of the allocated segment at offset 0
(the byte offset `2 * 2^31` is reduced modulo `2^32`). -/
theorem partition_fails_before_first_allocate :
    (ReachableIn (fun s => 1 ≤ s ∧ s ≤ 16777216) 4 20 0 fresh20 ∧ fresh20.node = [] ∧
     ¬ Coverage 20 fresh20.node ∧
     allocate bestFit 3 fresh20 16 = Outcome.returns (4096, used20)) ∧
    (ReachableIn (fun s => 1 ≤ s ∧ s ≤ 16777216) 2147483648 4 2 wide4 ∧
     allocate bestFit 3 wide4 1 = Outcome.returns (4096,
       { wide4 with node := [{ head := 0, hole := false, size := 1 },
                             { head := 1, hole := false, size := 1 },
                             { head := 2, hole := false, size := 1 },
                             { head := 3, hole := true, size := 1 }] }) ∧
     ({ head := 0, hole := false, size := 1 } : LL_Node) ∈ wide4.node ∧
     (4096 : Int) = wide4.start + 0 * wide4.word_size) := by
  refine ⟨⟨ReachableIn.initial 0 0 4096, rfl, by decide, by decide⟩, ?_, by decide, by decide,
    by decide⟩
  exact ReachableIn.afterAllocate bestFit 3 1 1
    { wide4 with node := [{ head := 0, hole := false, size := 1 },
                          { head := 1, hole := true, size := 3 }] } wide4 2147487744
    (ReachableIn.afterAllocate bestFit 3 1 0
      (initializeArena (construct 2147483648 0 0) 4 4096) _ 4096
      (ReachableIn.initial 0 0 4096) (Or.inl rfl) (by decide) (by decide))
    (Or.inl rfl) (by decide) (by decide)

/-- C18 (amended): starting from `initialize(wordCount)` with `1 ≤ wordCount < 65536` on
an arena of at most `2^32` bytes (`wordCount * wordSize ≤ 2^32`), after `k` returned
calls of `allocate` with `1 ≤ sizeInBytes ≤ 2^24` under `bestFit` or `worstFit` and any
number of calls of `free` with any address: the ledger is empty when `k = 0`; when
`k ≥ 1` it is not empty and covers `[0, wordCount)` with strictly increasing offsets and
segments of length at least 1.  Every non-null address a further such `allocate` returns
is `start + n.head * word_size` for a hole `n`, at least as long as
`ceil(sizeInBytes / word_size)` and lying inside `[0, wordCount)`; `n` is a hole of the
ledger before the call (for `k = 0`, the single hole `(0, wordCount)` that call creates),
and the address is not the start of any allocated segment of that ledger. -/
theorem no_double_allocation (wordSize wordCount k : Nat) (m : MemoryManager)
    (h1 : 1 ≤ wordCount) (h2 : wordCount < 65536) (h3 : wordCount * wordSize ≤ 4294967296)
    (h : ReachableIn (fun s => 1 ≤ s ∧ s ≤ 16777216) wordSize wordCount k m) :
    (k = 0 → m.node = []) ∧
    (0 < k → m.node ≠ [] ∧ Coverage wordCount m.node ∧ ∀ n ∈ m.node, 1 ≤ n.size) ∧
    ∀ (policy : Allocator) (fuel sizeInBytes : Nat) (addr : Int) (m' : MemoryManager),
      (policy = bestFit ∨ policy = worstFit) → 1 ≤ sizeInBytes → sizeInBytes ≤ 16777216 →
      allocate policy fuel m sizeInBytes = Outcome.returns (addr, m') → addr ≠ 0 →
      (∃ n : LL_Node, (0 < k → n ∈ m.node) ∧
        (k = 0 → n = { head := 0, hole := true, size := wordCount }) ∧
        n.hole = true ∧ addr = m.start + n.head * m.word_size ∧
        ceilDiv sizeInBytes m.word_size ≤ n.size ∧ 0 ≤ n.head ∧
        n.head + n.size ≤ wordCount) ∧
      ∀ x ∈ m.node, x.hole = false → addr ≠ m.start + x.head * m.word_size := by
  obtain ⟨e, ew, h0, hi⟩ := reachableIn_inv wordSize wordCount k m h2 h
  have hpos := reachableIn_pos wordSize wordCount k m h1 h2 h
  refine ⟨h0, fun hk => ⟨(hi hk).1, (hi hk).2.1, hpos⟩, ?_⟩
  intro policy fuel sizeInBytes addr m' hp hs1 hs2 hal hok
  have hinv : m.node = [] ∨ Inv m.size_in_words m.node := by
    rcases Nat.eq_zero_or_pos k with hk | hk
    · exact Or.inl (h0 hk)
    · rw [e]; exact Or.inr (hi hk).2
  have hws : 0 < m.word_size := Nat.pos_of_ne_zero (allocate_cases _ _ _ _ _ _ hal).1
  have hinv1 := inv_ledgerOf m (by omega) hinv
  rcases allocate_step policy hp fuel m sizeInBytes addr m' hs1 hs2 (by omega) hinv1 hal with
    ⟨ha0, _⟩ | ⟨front, n, back, hsplit, hhole, hfit, ha, _⟩
  · exact absurd ha0 hok
  · have hn : n ∈ ledgerOf m := by rw [hsplit]; simp
    have hb := (contiguous_bounds _ _ _ hinv1.1.1 hinv1.2).2 n hn
    have hl := wordsFor_pos sizeInBytes m.word_size hs1 hws hs2
    rw [e] at hb
    rw [offset_bytes n.head wordCount m.word_size hb.1 (by omega) (by rw [ew]; exact h3)] at ha
    rw [wordsFor_exact _ _ hs2 hws] at hfit
    have hled := ledgerOf_eq m (by omega)
    refine ⟨⟨n, ?_, ?_, hhole, ha, hfit, hb.1, hb.2⟩, ?_⟩
    · intro hk
      rw [hled, if_neg (hi hk).1] at hn
      exact hn
    · intro hk
      rw [hled, if_pos (h0 hk), e] at hn
      exact List.mem_singleton.1 hn
    · intro x hx hxa hax
      have hne : m.node ≠ [] := List.ne_nil_of_mem hx
      rw [hled, if_neg hne] at hn
      have hk : 0 < k := by
        rcases Nat.eq_zero_or_pos k with hk | hk
        · exact absurd (h0 hk) hne
        · exact hk
      have hhead : x.head = n.head := by
        rw [ha] at hax
        have h5 : n.head * (m.word_size : Int) = x.head * (m.word_size : Int) := by omega
        have h6 : (m.word_size : Int) ≠ 0 := by omega
        exact (Int.eq_of_mul_eq_mul_right h6 h5).symm
      have := increasing_head_inj m.node (hi hk).2.1.2 x n hx hn hhead
      rw [this, hhole] at hxa
      cases hxa

theorem no_double_allocation_witness :
    ((1 : Nat) = 0 → used20.node = []) ∧
    (0 < 1 → used20.node ≠ [] ∧ Coverage (20 : Nat) used20.node ∧
      ∀ n ∈ used20.node, 1 ≤ n.size) ∧
    ∀ (policy : Allocator) (fuel sizeInBytes : Nat) (addr : Int) (m' : MemoryManager),
      (policy = bestFit ∨ policy = worstFit) → 1 ≤ sizeInBytes → sizeInBytes ≤ 16777216 →
      allocate policy fuel used20 sizeInBytes = Outcome.returns (addr, m') → addr ≠ 0 →
      (∃ n : LL_Node, (0 < 1 → n ∈ used20.node) ∧
        ((1 : Nat) = 0 → n = { head := 0, hole := true, size := (20 : Nat) }) ∧
        n.hole = true ∧ addr = used20.start + n.head * used20.word_size ∧
        ceilDiv sizeInBytes used20.word_size ≤ n.size ∧ 0 ≤ n.head ∧
        n.head + n.size ≤ (20 : Nat)) ∧
      ∀ x ∈ used20.node, x.hole = false → addr ≠ used20.start + x.head * used20.word_size :=
  no_double_allocation 4 20 1 used20 (by decide) (by decide) (by decide) reachableIn_used20

theorem wordRun_succ (n j : Nat) :
    wordRun (n + 1) j = wordRun n j ++ [{ head := (n : Int), hole := decide (n < j), size := 1 }] := by
  simp [wordRun, List.range_succ]

theorem wordRun_mem (n j : Nat) (x : LL_Node) (hx : x ∈ wordRun n j) :
    ∃ i : Nat, i < n ∧ x = { head := (i : Int), hole := decide (i < j), size := 1 } := by
  obtain ⟨i, hi, rfl⟩ := List.mem_map.1 hx
  exact ⟨i, List.mem_range.1 hi, rfl⟩

theorem holePairs_append_allocated (xs ys : List LL_Node) (h : ∀ n ∈ xs, n.hole = false) :
    holePairs (xs ++ ys) = holePairs ys := by
  induction xs with
  | nil => rfl
  | cons x xs ih =>
    have e : holePairs (x :: xs ++ ys)
        = if x.hole then (toU16 x.head, toU16 x.size) :: holePairs (xs ++ ys)
          else holePairs (xs ++ ys) := rfl
    rw [e, if_neg (by rw [h x (List.mem_cons_self _ _)]; simp),
      ih (fun n hn => h n (List.mem_cons_of_mem _ hn))]

theorem allocate_filled (m : MemoryManager) (k : Nat) (hk : k < 32768) (hws : m.word_size = 1)
    (hled : ledgerOf m = filled k) :
    allocate worstFit 3 m 1 = Outcome.returns (m.start + k, { m with node := filled (k + 1) }) := by
  have hpairs : holePairs (filled k) = [(k, 65535 - k)] := by
    unfold filled
    rw [holePairs_append_allocated _ _ (by
      intro n hn
      obtain ⟨i, _, rfl⟩ := wordRun_mem _ _ _ hn
      simp)]
    have e1 : toU16 (k : Int) = k := by unfold toU16; omega
    have e2 : toU16 (65535 - (k : Int)) = 65535 - k := by unfold toU16; omega
    simp [holePairs, e1, e2]
  have hu : updateList 3 (filled k) = Outcome.returns (holeArray [(k, 65535 - k)]) := by
    rw [updateList_returns 3 _ (by rw [hpairs]; simp) (by rw [hpairs]; simp), hpairs]
  have hw : worstFit 3 1 (holeArray [(k, 65535 - k)]) = Outcome.returns (k : Int) := by
    rw [worstFit_eq _ _ _ (by simp), if_pos (by simp)]
    have h1 : (1 : Int) ≤ ((65535 - k : Nat) : Int) := by omega
    have h2 : (-1 : Int) < ((65535 - k : Nat) : Int) := by omega
    simp [select, h1, h2]
  have hc : claimNode (k : Int) 1 (filled k) = some (filled (k + 1)) := by
    unfold filled
    rw [claimNode_append_small (k : Int) 1 (wordRun k 0)
      { head := (k : Int), hole := true, size := 65535 - (k : Int) } [] (by
      intro x hx
      obtain ⟨i, hi, rfl⟩ := wordRun_mem _ _ _ hx
      simp only
      omega) rfl (by simp only; omega) (by omega) (by simp only; omega)
      (by simp only; omega)]
    unfold claimed
    have hne : ¬ ((65535 : Int) - (k : Int) = 1) := by omega
    simp only [if_neg hne]
    rw [wordRun_succ]
    have e3 : (65535 : Int) - (k : Int) - 1 = 65535 - ((k + 1 : Nat) : Int) := by
      push_cast; omega
    have e4 : ((k : Int) + 1) = ((k + 1 : Nat) : Int) := by push_cast; rfl
    have e5 : decide (k < 0) = false := by simp
    rw [e3, e4, e5]
    simp only [List.append_assoc, List.append_nil, List.cons_append, List.nil_append]
  have hwf : wordsFor 1 1 = 1 := by decide
  have hk1 : ((k : Nat) : Int) ≠ -1 := by omega
  have hmod : ((k : Int) * ((1 : Nat) : Int)) % 4294967296 = k := by
    rw [Nat.cast_one, mul_one]
    exact Int.emod_eq_of_lt (by omega) (by omega)
  unfold allocate
  rw [if_neg (by omega)]
  unfold ledgerOf at hled
  simp only [hled, hws, hwf, hu, hw, if_neg hk1, hc, hmod]

theorem reachable_filled (k : Nat) (hk : k < 32768) :
    Reachable (fun s => 1 ≤ s) 1 65535 (arena65535 (filled (k + 1))) := by
  induction k with
  | zero =>
    refine Reachable.afterAllocate worstFit 3 1 (initializeArena (construct 1 0 0) 65535 4096)
      _ 4096 (Reachable.initial 0 0 4096) (Or.inr rfl) (le_refl 1) ?_
    have h := allocate_filled (initializeArena (construct 1 0 0) 65535 4096) 0 (by omega) rfl
      (by
        have hw : wrap32 65535 = 65535 := by decide
        simp [ledgerOf, initializeArena, construct, filled, wordRun, hw])
    rw [h]
    rfl
  | succ k ih =>
    refine Reachable.afterAllocate worstFit 3 1 (arena65535 (filled (k + 1))) _
      (4096 + (k + 1 : Nat)) (ih (by omega)) (Or.inr rfl) (le_refl 1) ?_
    have hne : filled (k + 1) ≠ [] := by simp [filled]
    have h := allocate_filled (arena65535 (filled (k + 1))) (k + 1) hk rfl
      (by simp [ledgerOf, arena65535, hne])
    rw [h]
    rfl

theorem mark_eq_map (o : Int) (node : List LL_Node) :
    free.mark o node = node.map (fun n => if n.head = o then { n with hole := true } else n) := by
  induction node with
  | nil => rfl
  | cons z zs ih => simp only [free.mark, ih, List.map_cons]

theorem mark_wordRun (n j : Nat) : free.mark (j : Int) (wordRun n j) = wordRun n (j + 1) := by
  unfold wordRun
  rw [mark_eq_map, List.map_map]
  apply List.map_congr_left
  intro i _
  simp only [Function.comp]
  by_cases hij : (i : Int) = (j : Int)
  · have : i = j := by omega
    subst this
    simp
  · rw [if_neg hij]
    have : i ≠ j := by omega
    have h2 : (i < j + 1) = (i < j) := by
      apply propext
      omega
    simp [h2]

theorem wordRun_length (n j : Nat) : (wordRun n j).length = n := by
  simp [wordRun]

theorem mark_released (j : Nat) (hj : j < 32768) :
    free.mark (j : Int) (released j) = released (j + 1) := by
  unfold released
  rw [mark_append, mark_wordRun]
  congr 1
  have : ¬ ((32768 : Int) = (j : Int)) := by omega
  simp only [free.mark, if_neg this]

theorem released_zero : released 0 = filled 32768 := by
  have e : (⟨((32768 : Nat) : Int), true, 65535 - ((32768 : Nat) : Int)⟩ : LL_Node)
      = ⟨32768, true, 32767⟩ := by decide
  rw [released, filled, e]

theorem reachable_released (j : Nat) (hj : j ≤ 32768) :
    Reachable (fun s => 1 ≤ s) 1 65535 (arena65535 (released j)) := by
  induction j with
  | zero =>
    rw [released_zero]
    exact reachable_filled 32767 (by omega)
  | succ j ih =>
    refine Reachable.afterFree (4096 + (j : Int)) (arena65535 (released j)) _ (ih (by omega)) ?_
    rw [free_eq (arena65535 (released j)) (4096 + (j : Int)) Nat.one_pos]
    have hoff : Int.tdiv (4096 + (j : Int) - (arena65535 (released j)).start)
        ((arena65535 (released j)).word_size : Int) = (j : Int) := by
      show Int.tdiv (4096 + (j : Int) - 4096) ((1 : Nat) : Int) = (j : Int)
      rw [add_sub_cancel_left]
      simp
    rw [hoff]
    show Outcome.returns (arena65535 (free.mark (j : Int) (released j))) = _
    rw [mark_released j (by omega)]

theorem released_holes : (holePairs (released 32768)).length = 32769 := by
  rw [holePairs_all_holes]
  · rw [released, List.length_append, wordRun_length]
    rfl
  · intro n hn
    unfold released at hn
    rcases List.mem_append.1 hn with h | h
    · obtain ⟨i, hi, rfl⟩ := wordRun_mem _ _ _ h
      simp [hi]
    · rw [List.mem_singleton.1 h]

/-- C19 (code evaluated): the 65535-word arena with 1-byte words reaches, by 32768 calls
`allocate(1)` under `worstFit` and `free` of the 32768 addresses returned, a ledger of
32769 holes on which `getList` never returns, whatever the fuel, so that `allocate` under
either policy never returns either; and on the array of 32768 holes `manyHoles` neither
`bestFit` nor `worstFit` returns. -/
theorem getList_diverges_on_reachable_ledger :
    Reachable (fun s => 1 ≤ s) 1 65535 (arena65535 (released 32768)) ∧
    (holePairs (released 32768)).length = 32769 ∧
    (∀ fuel, updateList fuel (released 32768) = Outcome.outOfFuel) ∧
    (∀ fuel sizeInBytes, allocate bestFit fuel (arena65535 (released 32768)) sizeInBytes
        = Outcome.outOfFuel ∧
      allocate worstFit fuel (arena65535 (released 32768)) sizeInBytes = Outcome.outOfFuel) ∧
    (∀ fuel, bestFit fuel 1 (holeArray manyHoles) = Outcome.outOfFuel ∧
      worstFit fuel 1 (holeArray manyHoles) = Outcome.outOfFuel) := by
  have hu : ∀ fuel, updateList fuel (released 32768) = Outcome.outOfFuel :=
    fun fuel => updateList_never_returns _ (by rw [released_holes]; decide) fuel
  have hne : released 32768 ≠ [] := by simp [released]
  refine ⟨reachable_released 32768 (le_refl _), released_holes, hu, ?_, ?_⟩
  · intro fuel sizeInBytes
    constructor <;>
    · unfold allocate
      simp [arena65535, hne, hu]
  · intro fuel
    constructor
    · simp only [bestFit, holeArray]
      rw [bestFit_loop_eq]
      exact fitLoop_never_returns _ _ _ _ (by rw [manyHoles_length]) fuel 1 _ _ (by norm_num)
    · simp only [worstFit, holeArray]
      rw [worstFit_loop_eq]
      exact fitLoop_never_returns _ _ _ _ (by rw [manyHoles_length]) fuel 1 _ _ (by norm_num)

/-- C13 (code evaluated): on the reachable ledger `released 32768` of the 65535-word arena,
which has 32769 holes, `updateList` (hence `getList`) returns no array at all, whatever
the fuel: its `uint16_t` counter stays below `l * 2 = 65538`. -/
theorem getList_returns_nothing_on_32769_holes :
    Reachable (fun s => 1 ≤ s) 1 65535 (arena65535 (released 32768)) ∧
    ¬ ∃ fuel list, updateList fuel (arena65535 (released 32768)).node = Outcome.returns list := by
  refine ⟨reachable_released 32768 (le_refl _), ?_⟩
  rintro ⟨fuel, list, h⟩
  have hu := updateList_never_returns (released 32768) (by rw [released_holes]; decide) fuel
  have h2 : updateList fuel (released 32768) = Outcome.returns list := h
  rw [hu] at h2
  cases h2

end MemSim
